import Mathlib

/-!
# Verification of the flowerfield Scheme/Field mapping engine

Shallow embedding of `src/flowerfield/__init__.py` (version 0.6.1).

The Python library maps untyped key/value data (decoded JSON) onto typed
record instances (`Scheme` subclasses made of `Field` descriptors) and back.
We embed the dynamic value universe as the inductive type `Val`, Python
classes registered in `_schemes_map` as a list of `SchemeDef` records
(the environment `Env`, in registration order), and the operations
`Scheme.coverage`, `Scheme.from_dict`, `Field.__set__`, `Field.validate`,
`ListField.__set__` / `ListField.unpack_list`, `Scheme.as_dict` and
`Scheme.__eq__` as Lean functions over that embedding.

Python exceptions are modelled by the `Except PyErr` monad.  Unbounded
recursion in `from_dict` (nested structure resolution) is modelled with an
explicit fuel parameter; running out of fuel yields the artificial error
`PyErr.fuelOut`, which no real execution path produces.
-/

set_option autoImplicit false

namespace Flowerfield

/-- The dynamic (decoded JSON / Python object) value universe.

  * `none`  – Python `None`
  * `int`   – Python `int`
  * `str`   – Python `str`
  * `map`   – a Python `dict` (a generic `Mapping`), as an association list
              in insertion order
  * `list`  – a Python `list`
  * `inst`  – a `Scheme` instance: the name of its class together with its
              stored field slots (`obj.__dict__['_field_<name>']` entries)
-/
inductive Val where
  | none : Val
  | int : Int → Val
  | str : String → Val
  | map : List (String × Val) → Val
  | list : List Val → Val
  | inst : String → List (String × Val) → Val

/-- Declared acceptable runtime types of a `Field` (the entries of the
`Field.type` tuple).  `schemeTy n` is a direct reference to the `Scheme`
subclass named `n`. -/
inductive PyTy where
  | intTy : PyTy
  | strTy : PyTy
  | noneTy : PyTy
  | dictTy : PyTy
  | listTy : PyTy
  | schemeTy : String → PyTy

/-- Which descriptor class the field was declared with.  `OptionalField` is
`plain` with `PyTy.noneTy` appended to its types (exactly what
`OptionalField.__init__` does); `ListField` overrides `__set__`. -/
inductive FieldKind where
  | plain : FieldKind
  | list : FieldKind

/-- A `Field` descriptor as configured at class-definition time.
`al` is `Field.alias`, `schemeNames` is `Field._scheme_names`, `validator`
models the optional validator callable: `Option.none` result = the callable
raised an exception. -/
structure FieldDecl where
  name : String
  al : Option String
  type : List PyTy
  schemeNames : List String
  validator : Option (Val → Option Val)
  kind : FieldKind

/-- A `Scheme` subclass as registered by `Scheme.__init_subclass__`:
its name, its directly declared fields in class-body order, its `_root`
flag, and the name of its direct base class (used to model
`cls.__subclasses__()`). -/
structure SchemeDef where
  name : String
  fields : List FieldDecl
  root : Bool
  parent : Option String

/-- The process-wide registry `_schemes_map`, in class definition order. -/
abbrev Env := List SchemeDef

/-- Python exceptions raised by the engine.  `badEnv` and `fuelOut` are
model artifacts (a dangling direct class reference in the environment /
fuel exhaustion) that no faithful execution reaches. -/
inductive PyErr where
  | schemaNoMatch : String → List String → Val → PyErr
  | fieldTypeErr : String → String → Val → PyErr
  | fieldValidationErr : String → String → Val → PyErr
  | unknownSchemeName : String → PyErr
  | keyErr : String → String → PyErr
  | valueErr : PyErr
  | assertionErr : PyErr
  | badEnv : PyErr
  | fuelOut : PyErr

/-- First-occurrence association lookup (Python `dict` access on an
association list whose keys are unique). -/
def assocGet {α : Type} : List (String × α) → String → Option α
  | [], _ => Option.none
  | (k, v) :: rest, key => if k = key then some v else assocGet rest key

/-- `d[k] = v` on a Python dict: replace in place if the key exists,
append otherwise. -/
def insertReplace {α : Type} : List (String × α) → String → α → List (String × α)
  | [], k, v => [(k, v)]
  | (k', v') :: rest, k, v =>
      if k' = k then (k', v) :: rest else (k', v') :: insertReplace rest k v

/-- `_schemes_map[n]`: later registrations of the same class name
overwrite earlier ones. -/
def lookupScheme (env : Env) (n : String) : Option SchemeDef :=
  env.foldl (fun acc s => if s.name = n then some s else acc) Option.none

/-- `cls.__subclasses__()`: the direct subclasses, in definition order. -/
def subsOf (env : Env) (cls : SchemeDef) : List SchemeDef :=
  env.filter (fun s => s.parent = some cls.name)

/-- `cls._fields`: the set of declared field names (`frozenset` in the
source; we keep a duplicate-free list). -/
def fieldNames (cls : SchemeDef) : List String :=
  (cls.fields.map (·.name)).dedup

/-- `cls._aliases`: alias name → canonical field name, built in class-body
order with dict-overwrite semantics.  `Field.__set_name__` discards an
alias equal to the field's own name before this table is built. -/
def aliasPairs (cls : SchemeDef) : List (String × String) :=
  cls.fields.foldl
    (fun acc f =>
      match f.al with
      | some a => if a = f.name then acc else insertReplace acc a f.name
      | Option.none => acc)
    []

/-- The declared alias names of a scheme (`cls._aliases.keys()`). -/
def aliasKeys (cls : SchemeDef) : List String :=
  (aliasPairs cls).map Prod.fst

/-- `Scheme.coverage(keys)`: `len(_fields ∩ keys) + len(_aliases.keys() ∩ keys)`. -/
def coverage (cls : SchemeDef) (keys : List String) : Nat :=
  ((fieldNames cls).filter (fun f => keys.contains f)).length
    + ((aliasKeys cls).filter (fun a => keys.contains a)).length

/-- The ancestor chain of a class name (itself first), following `parent`
links; bounded by the fuel argument to stay total on garbage environments. -/
def ancestorsAux (env : Env) : Nat → String → List String
  | 0, _ => []
  | k + 1, t =>
      t :: (match lookupScheme env t with
            | some s =>
                match s.parent with
                | some p => ancestorsAux env k p
                | Option.none => []
            | Option.none => [])

/-- `issubclass(a, b)` for registered scheme classes. -/
def isSubclass (env : Env) (a b : String) : Bool :=
  (ancestorsAux env (env.length + 1) a).contains b

/-- `isinstance(v, tys)` over the embedded universe.  `Scheme` instances
match a direct scheme-class reference up to subclassing. -/
def isInstanceOf (env : Env) (v : Val) (tys : List PyTy) : Bool :=
  tys.any (fun ty =>
    match ty, v with
    | .intTy, .int _ => true
    | .strTy, .str _ => true
    | .noneTy, .none => true
    | .dictTy, .map _ => true
    | .listTy, .list _ => true
    | .schemeTy n, .inst t _ => isSubclass env t n
    | _, _ => false)

/-- `isinstance(v, Mapping)`: Python dicts, and `Scheme` instances
(`Scheme` derives from `collections.abc.Mapping`). -/
def isMappingVal : Val → Bool
  | .map _ => true
  | .inst _ _ => true
  | _ => false

/-- `Field.is_struct`: some accepted type is a `Scheme` subclass, or the
field names at least one scheme by string. -/
def isStruct (fd : FieldDecl) : Bool :=
  fd.type.any (fun ty => match ty with | .schemeTy _ => true | _ => false)
    || !fd.schemeNames.isEmpty

/-- `set(d.keys())` of a `Mapping` value: a dict's keys, or `Scheme.keys()`
(= `cls._fields`) for an instance. -/
def keysOfVal (env : Env) : Val → List String
  | .map e => e.map Prod.fst
  | .inst t _ =>
      match lookupScheme env t with
      | some s => fieldNames s
      | Option.none => []
  | _ => []

/-- `d.get(k)` (default `None`) of a `Mapping` value.  For an instance this
is `Scheme.get`: `getattr(self, key) if key in self._fields else None` —
note it ignores aliases. -/
def mapGet (env : Env) : Val → String → Val
  | .map e, k => (assocGet e k).getD .none
  | .inst t slots, k =>
      match lookupScheme env t with
      | some s =>
          if (fieldNames s).contains k then (assocGet slots k).getD .none else .none
      | Option.none => .none
  | _, _ => .none

/-- `k in d` of a `Mapping` value.  For an instance this is
`Scheme.__contains__`: canonical field name or alias. -/
def mapContains (env : Env) : Val → String → Bool
  | .map e, k => (e.map Prod.fst).contains k
  | .inst t _, k =>
      match lookupScheme env t with
      | some s => (fieldNames s).contains k || (aliasKeys s).contains k
      | Option.none => false
  | _, _ => false

/-- `d[k]` of a `Mapping` value, with the out-of-domain cases (a `KeyError`
in Python, only ever evaluated behind a `k in d` guard) defaulting to
`None`.  For an instance this is `Scheme.__getitem__`: resolve an alias to
its canonical field, then `getattr`. -/
def getItemD (env : Env) : Val → String → Val
  | .map e, k => (assocGet e k).getD .none
  | .inst t slots, k =>
      match lookupScheme env t with
      | some s =>
          let k' := (assocGet (aliasPairs s) k).getD k
          (assocGet slots k').getD .none
      | Option.none => .none
  | _, _ => .none

/-- `Scheme.__iter__`: every alias name first (in `_aliases` order), then
the fields left over once alias-covered fields are removed. -/
def iterKeysInst (env : Env) (t : String) : List String :=
  match lookupScheme env t with
  | some s =>
      let aliased := (aliasPairs s).map Prod.snd
      aliasKeys s ++ (fieldNames s).filter (fun f => !aliased.contains f)
  | Option.none => []

/-- The dict/max selection in `Scheme.from_dict` and `Field.get_struct`:
`struct_map[score] = cls` for each candidate in order (later candidates
with an equal score overwrite earlier ones), then `struct_map[max(keys)]`.
Equivalently: keep the best score seen so far, replacing on ties. -/
def pickBest : List (Nat × SchemeDef) → Option (Nat × SchemeDef)
  | cands =>
      cands.foldl
        (fun acc p =>
          match acc with
          | Option.none => some p
          | some q => if q.1 ≤ p.1 then some p else some q)
        Option.none

/-- Resolve the direct scheme-class references among a field's declared
types (`issubclass(i, Scheme)` entries of `Field.type`), in order.  A
dangling name is a broken environment, impossible in Python where the
tuple holds the class objects themselves. -/
def resolveTys (env : Env) : List PyTy → Except PyErr (List SchemeDef)
  | [] => .ok []
  | .schemeTy n :: rest =>
      match lookupScheme env n with
      | some s =>
          match resolveTys env rest with
          | .ok r => .ok (s :: r)
          | .error e => .error e
      | Option.none => .error .badEnv
  | _ :: rest => resolveTys env rest

/-- Resolve `Field._scheme_names` through the registry; a missing name
raises `UnknownSchemeName` (`Field.get_struct`). -/
def resolveNames (env : Env) : List String → Except PyErr (List SchemeDef)
  | [] => .ok []
  | n :: rest =>
      match lookupScheme env n with
      | some s =>
          match resolveNames env rest with
          | .ok r => .ok (s :: r)
          | .error e => .error e
      | Option.none => .error (.unknownSchemeName n)

/-- `Field.get_struct(value)`: score every candidate scheme type against
the mapping's key set and return the best one (no zero-coverage check
here; `from_dict` performs it). -/
def getStruct (env : Env) (fd : FieldDecl) (keys : List String) :
    Except PyErr SchemeDef :=
  match resolveTys env fd.type with
  | .error e => .error e
  | .ok a =>
      match resolveNames env fd.schemeNames with
      | .error e => .error e
      | .ok b =>
          match pickBest ((a ++ b).map (fun s => (coverage s keys, s))) with
          | some p => .ok p.2
          | Option.none => .error .valueErr

theorem val_sizeOf_pos (v : Val) : 1 ≤ sizeOf v := by
  cases v <;> simp_arith

theorem assocGet_sizeOf_lt {l : List (String × Val)} {k : String} {v : Val}
    (h : assocGet l k = some v) : sizeOf v < sizeOf l := by
  induction l with
  | nil => simp [assocGet] at h
  | cons hd tl ih =>
      obtain ⟨k', v'⟩ := hd
      simp only [assocGet] at h
      split at h
      · cases h; simp; omega
      · have := ih h; simp; omega

theorem mapGet_sizeOf_le (env : Env) (d : Val) (k : String) :
    sizeOf (mapGet env d k) ≤ sizeOf d := by
  cases d with
  | map e =>
      simp only [mapGet]
      cases he : assocGet e k with
      | none => simp_arith
      | some v => have := assocGet_sizeOf_lt he; simp; omega
  | inst t slots =>
      simp only [mapGet]
      cases lookupScheme env t with
      | none => simp_arith
      | some s =>
          simp only []
          split
          · cases he : assocGet slots k with
            | none => simp_arith
            | some v => have := assocGet_sizeOf_lt he; simp; omega
          · simp_arith
  | none => simp [mapGet]
  | int i => simp_arith [mapGet]
  | str s => simp_arith [mapGet]
  | list l => simp_arith [mapGet]

theorem lex4 {a1 b1 c1 d1 a2 b2 c2 d2 : Nat}
    (h : a1 < a2 ∨ (a1 = a2 ∧ (b1 < b2 ∨ (b1 = b2 ∧
          (c1 < c2 ∨ (c1 = c2 ∧ d1 < d2)))))) :
    Prod.Lex (fun x y => x < y)
      (Prod.Lex (fun x y => x < y) (Prod.Lex (fun x y => x < y) fun x y => x < y))
      (a1, b1, c1, d1) (a2, b2, c2, d2) := by
  rcases h with h | ⟨rfl, h⟩
  · exact Prod.Lex.left _ _ h
  · rcases h with h | ⟨rfl, h⟩
    · exact Prod.Lex.right _ (Prod.Lex.left _ _ h)
    · rcases h with h | ⟨rfl, h⟩
      · exact Prod.Lex.right _ (Prod.Lex.right _ (Prod.Lex.left _ _ h))
      · exact Prod.Lex.right _ (Prod.Lex.right _ (Prod.Lex.right _ h))

theorem lex4three {a1 b1 c1 a2 b2 c2 : Nat}
    (h : a1 < a2 ∨ (a1 = a2 ∧ (b1 < b2 ∨ (b1 = b2 ∧ c1 < c2)))) :
    Prod.Lex (fun x y => x < y) (Prod.Lex (fun x y => x < y) fun x y => x < y)
      (a1, b1, c1) (a2, b2, c2) := by
  rcases h with h | ⟨rfl, h⟩
  · exact Prod.Lex.left _ _ h
  · rcases h with h | ⟨rfl, h⟩
    · exact Prod.Lex.right _ (Prod.Lex.left _ _ h)
    · exact Prod.Lex.right _ (Prod.Lex.right _ h)

/-- The root-dispatch step at the top of `Scheme.from_dict`: on a root
class, score every direct subclass and take `struct_map[max(...)]`
(`ValueError` on `max` of an empty sequence when there are no
subclasses); on a concrete class, take its own coverage. -/
def selectCls (env : Env) (cls0 : SchemeDef) (keys : List String) :
    Except PyErr (Nat × SchemeDef) :=
  if cls0.root then
    match pickBest ((subsOf env cls0).map (fun s => (coverage s keys, s))) with
    | some p => .ok p
    | Option.none => .error .valueErr
  else .ok (coverage cls0 keys, cls0)

/-- Store a coerced value in the field's slot and run `Field.validate`:
no validator → keep the stored value; validator returns `w'` → the stored
value is replaced by `w'`; validator raises → `FieldValidationError`
naming the field, the owning scheme, and the currently stored value. -/
def afterStore (owner : String) (fd : FieldDecl) (st : List (String × Val))
    (w : Val) : Except PyErr (List (String × Val)) :=
  let st' := insertReplace st fd.name w
  match fd.validator with
  | Option.none => .ok st'
  | some vf =>
      match vf w with
      | some w' => .ok (insertReplace st' fd.name w')
      | Option.none => .error (.fieldValidationErr fd.name owner w)

mutual

/-- `Scheme.from_dict(d)` with explicit recursion fuel `n`:
assert `d` is a `Mapping`; on a root class dispatch to the best-covered
direct subclass; fail with the no-match `SchemaError` when the chosen
coverage is zero; otherwise instantiate and assign every field, aliases
first (`struct[field] = d.get(alias)` for each alias present in `d`),
then the remaining fields from their canonical names. -/
def fromDict : Env → Nat → SchemeDef → Val → Except PyErr Val
  | _, 0, _, _ => .error .fuelOut
  | env, n + 1, cls0, d =>
    if isMappingVal d then
      match selectCls env cls0 (keysOfVal env d) with
      | .error e => .error e
      | .ok (cov, cls) =>
          if cov = 0 then .error (.schemaNoMatch cls.name (fieldNames cls) d)
          else
            match bindAliases env n cls d [] [] (aliasPairs cls) with
            | .error e => .error e
            | .ok (st, done) =>
                match bindRest env n cls d st
                    ((fieldNames cls).filter (fun f => !done.contains f)) with
                | .error e => .error e
                | .ok st2 => .ok (.inst cls.name st2)
    else .error .assertionErr
termination_by env fuel cls d => (fuel, sizeOf d, 0, 0)
decreasing_by
all_goals simp_wf
all_goals apply lex4
all_goals omega

/-- The alias loop of `from_dict`: `for alias, field in cls._aliases.items():
if alias in d: struct[field] = d.get(alias); done.add(field)`. -/
def bindAliases (env : Env) (n : Nat) (cls : SchemeDef) (d : Val)
    (st : List (String × Val)) (done : List String) :
    List (String × String) → Except PyErr (List (String × Val) × List String)
  | [] => .ok (st, done)
  | (a, f) :: rest =>
      if mapContains env d a then
        have _hszle : sizeOf (mapGet env d a) ≤ sizeOf d := mapGet_sizeOf_le env d a
        match setItemE env n cls st f (mapGet env d a) with
        | .error e => .error e
        | .ok st2 => bindAliases env n cls d st2 (done ++ [f]) rest
      else bindAliases env n cls d st done rest
termination_by pairs => (n, sizeOf d, 3, sizeOf pairs)
decreasing_by
all_goals simp_wf
all_goals apply lex4
all_goals omega

/-- The canonical-name loop of `from_dict`:
`for field in cls._fields.difference(done): struct[field] = d.get(field)`. -/
def bindRest (env : Env) (n : Nat) (cls : SchemeDef) (d : Val)
    (st : List (String × Val)) :
    List String → Except PyErr (List (String × Val))
  | [] => .ok st
  | f :: rest =>
      have _hszle : sizeOf (mapGet env d f) ≤ sizeOf d := mapGet_sizeOf_le env d f
      match setItemE env n cls st f (mapGet env d f) with
      | .error e => .error e
      | .ok st2 => bindRest env n cls d st2 rest
termination_by l => (n, sizeOf d, 3, sizeOf l)
decreasing_by
all_goals simp_wf
all_goals apply lex4
all_goals omega

/-- `Scheme.__setitem__(key, value)`: resolve an alias to its canonical
field, `KeyError` if the result is not a declared field, otherwise
assign through the field descriptor. -/
def setItemE (env : Env) (n : Nat) (cls : SchemeDef)
    (st : List (String × Val)) (key : String) (v : Val) :
    Except PyErr (List (String × Val)) :=
  let key' := (assocGet (aliasPairs cls) key).getD key
  if (fieldNames cls).contains key' then
    match cls.fields.find? (fun fd => fd.name == key') with
    | some fd => fieldSetE env n cls.name fd st v
    | Option.none => .error (.keyErr cls.name key')
  else .error (.keyErr cls.name key')
termination_by (n, sizeOf v, 2, 0)
decreasing_by
all_goals simp_wf
all_goals apply lex4
all_goals omega

/-- The field write contract.  `ListField.__set__`: `None` passes through,
a list is unpacked elementwise, anything else fails the `assert`
(and no validator runs).  `Field.__set__` (also `OptionalField`):
accept-anything fields store the value; a value of a declared type is
stored unchanged; a `Mapping` on a structural field is resolved via
`get_struct` and recursively built with `from_dict`; anything else raises
`FieldTypeError`; then `Field.validate` runs. -/
def fieldSetE (env : Env) (n : Nat) (owner : String) (fd : FieldDecl)
    (st : List (String × Val)) (v : Val) :
    Except PyErr (List (String × Val)) :=
  match fd.kind with
  | .list =>
      match v with
      | .none => .ok (insertReplace st fd.name .none)
      | .list l =>
          match unpackList env n owner fd l with
          | .ok out => .ok (insertReplace st fd.name (.list out))
          | .error e => .error e
      | _ => .error .assertionErr
  | .plain =>
      if fd.type.isEmpty && fd.schemeNames.isEmpty then afterStore owner fd st v
      else if isInstanceOf env v fd.type then afterStore owner fd st v
      else if isMappingVal v && isStruct fd then
        match getStruct env fd (keysOfVal env v) with
        | .error e => .error e
        | .ok c =>
            match fromDict env n c v with
            | .error e => .error e
            | .ok w => afterStore owner fd st w
      else .error (.fieldTypeErr fd.name owner v)
termination_by (n, sizeOf v, 1, 0)
decreasing_by
all_goals simp_wf
all_goals apply lex4
all_goals omega

/-- `ListField.unpack_list`: coerce each element independently — declared
type match, structural `Mapping` resolution, or recursive unpacking of a
nested list; any other element raises `FieldTypeError`. -/
def unpackList : Env → Nat → String → FieldDecl → List Val →
    Except PyErr (List Val)
  | _, _, _, _, [] => .ok []
  | env, n, owner, fd, v :: rest =>
      if isInstanceOf env v fd.type then
        match unpackList env n owner fd rest with
        | .ok out => .ok (v :: out)
        | .error e => .error e
      else if isMappingVal v && isStruct fd then
        match getStruct env fd (keysOfVal env v) with
        | .error e => .error e
        | .ok c =>
            match fromDict env n c v with
            | .error e => .error e
            | .ok w =>
                match unpackList env n owner fd rest with
                | .ok out => .ok (w :: out)
                | .error e => .error e
      else
        match v with
        | .list l =>
            match unpackList env n owner fd l with
            | .error e => .error e
            | .ok inner =>
                match unpackList env n owner fd rest with
                | .ok out => .ok (.list inner :: out)
                | .error e => .error e
        | _ => .error (.fieldTypeErr fd.name owner v)
termination_by env n owner fd l => (n, sizeOf l, 1, 0)
decreasing_by
all_goals simp_wf
all_goals apply lex4
all_goals omega

end

theorem listPair_sizeOf_pos (l : List (String × Val)) : 1 ≤ sizeOf l := by
  cases l <;> simp_arith

theorem listVal_sizeOf_pos (l : List Val) : 1 ≤ sizeOf l := by
  cases l <;> simp_arith

theorem assocGetD_sizeOf_le (l : List (String × Val)) (k : String) :
    sizeOf ((assocGet l k).getD Val.none) ≤ sizeOf l := by
  cases he : assocGet l k with
  | none => simpa using listPair_sizeOf_pos l
  | some v => have := assocGet_sizeOf_lt he; simp; omega

theorem getItemD_sizeOf_le (env : Env) (b : Val) (k : String) :
    sizeOf (getItemD env b k) ≤ sizeOf b := by
  cases b with
  | map e => have := assocGetD_sizeOf_le e k; simp [getItemD]; omega
  | inst t slots =>
      simp only [getItemD]
      cases lookupScheme env t with
      | none => simp; omega
      | some s => have := assocGetD_sizeOf_le slots ((assocGet (aliasPairs s) k).getD k); simp; omega
  | none => simp [getItemD]
  | int i => simp_arith [getItemD]
  | str s => simp_arith [getItemD]
  | list l => simp_arith [getItemD]

theorem getItemD_inst_sizeOf_le (env : Env) (t : String)
    (slots : List (String × Val)) (k : String) :
    sizeOf (getItemD env (Val.inst t slots) k) ≤ sizeOf slots := by
  simp only [getItemD]
  cases lookupScheme env t with
  | none => simpa using listPair_sizeOf_pos slots
  | some s => exact assocGetD_sizeOf_le slots ((assocGet (aliasPairs s) k).getD k)

mutual

/-- Python `==` over the embedded universe, following CPython's rich
comparison dispatch: a `Scheme` operand (on either side — the reflected
call when the left operand's comparison returns `NotImplemented`) uses
`Scheme.__eq__` — containment over the scheme's iteration keys; dicts
compare by key set and per-key values; lists elementwise; scalars by
structure.  `x != y` is `!pyEq x y` for every type in this universe. -/
def pyEq (env : Env) : Val → Val → Bool
  | .inst t slots, b =>
      isMappingVal b && instKeysEq env t slots b (iterKeysInst env t)
  | a, .inst t slots =>
      isMappingVal a && instKeysEq env t slots a (iterKeysInst env t)
  | .map e1, .map e2 =>
      (e1.map Prod.fst).all (fun k => (e2.map Prod.fst).contains k)
        && (e2.map Prod.fst).all (fun k => (e1.map Prod.fst).contains k)
        && mapKeysEq env e1 e2 (e1.map Prod.fst)
  | .list l1, .list l2 => listEq env l1 l2
  | .none, .none => true
  | .int a, .int b => a == b
  | .str a, .str b => a == b
  | _, _ => false
termination_by a b => (sizeOf a + sizeOf b, 1, 0)
decreasing_by
all_goals simp_wf
all_goals apply lex4three
all_goals omega

/-- The key loop of `Scheme.__eq__`: every iteration key of `self` must be
contained in `other` with `==`-equal values (`other[key] != self[key]`
refutes). -/
def instKeysEq (env : Env) (t : String) (slots : List (String × Val))
    (other : Val) : List String → Bool
  | [] => true
  | k :: ks =>
      if mapContains env other k then
        have h1 : sizeOf (getItemD env other k) ≤ sizeOf other :=
          getItemD_sizeOf_le env other k
        have h2 : sizeOf (getItemD env (Val.inst t slots) k) ≤ sizeOf slots :=
          getItemD_inst_sizeOf_le env t slots k
        pyEq env (getItemD env other k) (getItemD env (Val.inst t slots) k)
          && instKeysEq env t slots other ks
      else false
termination_by ks => (sizeOf slots + sizeOf other + 1, 0, sizeOf ks)
decreasing_by
all_goals simp_wf
all_goals apply lex4three
all_goals omega

/-- Per-key value comparison of two dicts (CPython `dict_equal`). -/
def mapKeysEq (env : Env) (e1 e2 : List (String × Val)) : List String → Bool
  | [] => true
  | k :: ks =>
      have h1 : sizeOf ((assocGet e1 k).getD Val.none) ≤ sizeOf e1 :=
        assocGetD_sizeOf_le e1 k
      have h2 : sizeOf ((assocGet e2 k).getD Val.none) ≤ sizeOf e2 :=
        assocGetD_sizeOf_le e2 k
      pyEq env ((assocGet e1 k).getD Val.none) ((assocGet e2 k).getD Val.none)
        && mapKeysEq env e1 e2 ks
termination_by ks => (sizeOf e1 + sizeOf e2 + 1, 0, sizeOf ks)
decreasing_by
all_goals simp_wf
all_goals apply lex4three
all_goals omega

/-- Elementwise list `==` (lengths must agree). -/
def listEq (env : Env) : List Val → List Val → Bool
  | [], [] => true
  | v1 :: r1, v2 :: r2 => pyEq env v1 v2 && listEq env r1 r2
  | _, _ => false
termination_by l1 l2 => (sizeOf l1 + sizeOf l2 + 1, 0, 0)
decreasing_by
all_goals simp_wf
all_goals apply lex4three
all_goals omega

end

/-- `value is not None`. -/
def notNoneVal : Val → Bool
  | .none => false
  | _ => true

/-- The `{value: key for key, value in self._aliases.items()}` table of
`Scheme.as_dict`: canonical field name → alias name. -/
def invAliases (s : SchemeDef) : List (String × String) :=
  (aliasPairs s).foldl (fun acc p => insertReplace acc p.2 p.1) []

/-- The external key `as_dict` emits a field under:
`key = aliases.get(key, key)`. -/
def extOf (s : SchemeDef) (f : String) : String :=
  (assocGet (invAliases s) f).getD f

mutual

/-- `Scheme.as_dict(leave_none)` on an instance value (any other value is
returned unchanged, matching the `isinstance(value, Scheme)` guard at its
single recursive use site). -/
def exportVal (env : Env) (leaveNone : Bool) : Val → Val
  | .inst t slots =>
      .map (match lookupScheme env t with
            | some s => exportFields env leaveNone s slots [] (fieldNames s)
            | Option.none => [])
  | v => v
termination_by v => (sizeOf v, 1, 0)
decreasing_by
all_goals simp_wf
all_goals apply lex4three
all_goals omega

/-- The field loop of `as_dict`: read every declared field, skip an absent
(`None`) value unless `leave_none`, emit under the alias name when the
field declares one, recursing into `Scheme` values. -/
def exportFields (env : Env) (leaveNone : Bool) (s : SchemeDef)
    (slots : List (String × Val)) (acc : List (String × Val)) :
    List String → List (String × Val)
  | [] => acc
  | f :: rest =>
      if hv : (assocGet slots f).isSome then
        have hlt : sizeOf ((assocGet slots f).get hv) < sizeOf slots :=
          assocGet_sizeOf_lt (Option.some_get hv).symm
        if notNoneVal ((assocGet slots f).get hv) || leaveNone then
          exportFields env leaveNone s slots
            (insertReplace acc (extOf s f)
              (exportVal env leaveNone ((assocGet slots f).get hv))) rest
        else exportFields env leaveNone s slots acc rest
      else
        if leaveNone then
          exportFields env leaveNone s slots
            (insertReplace acc (extOf s f) Val.none) rest
        else exportFields env leaveNone s slots acc rest
termination_by fs => (sizeOf slots, 0, sizeOf fs)
decreasing_by
all_goals simp_wf
all_goals apply lex4three
all_goals omega

end

/-! ## Association-list and table lemmas -/

theorem assocGet_insertReplace_self {α : Type} (l : List (String × α))
    (k : String) (v : α) : assocGet (insertReplace l k v) k = some v := by
  induction l with
  | nil => simp [insertReplace, assocGet]
  | cons hd tl ih =>
      obtain ⟨k', v'⟩ := hd
      by_cases h : k' = k <;> simp [insertReplace, assocGet, h, ih]

theorem assocGet_insertReplace_ne {α : Type} (l : List (String × α))
    {k k' : String} (v : α) (h : k' ≠ k) :
    assocGet (insertReplace l k v) k' = assocGet l k' := by
  have hkk : ¬ (k = k') := fun he => h he.symm
  induction l with
  | nil => simp [insertReplace, assocGet, hkk]
  | cons hd tl ih =>
      obtain ⟨k0, v0⟩ := hd
      by_cases h0 : k0 = k
      · subst h0
        simp [insertReplace, assocGet, hkk]
      · simp only [insertReplace, h0, if_false, assocGet]
        by_cases h1 : k0 = k' <;> simp [h1, ih]

theorem insertReplace_of_not_mem {α : Type} (l : List (String × α))
    {k : String} (v : α) (h : ¬ k ∈ l.map Prod.fst) :
    insertReplace l k v = l ++ [(k, v)] := by
  induction l with
  | nil => simp [insertReplace]
  | cons hd tl ih =>
      obtain ⟨k0, v0⟩ := hd
      simp only [List.map_cons, List.mem_cons] at h
      push_neg at h
      have h1 : ¬ (k0 = k) := fun he => h.1 he.symm
      simp [insertReplace, h1, ih h.2]

theorem assocGet_append_left {α : Type} {l1 : List (String × α)}
    (l2 : List (String × α)) {k : String} {v : α}
    (h : assocGet l1 k = some v) : assocGet (l1 ++ l2) k = some v := by
  induction l1 with
  | nil => simp [assocGet] at h
  | cons hd tl ih =>
      obtain ⟨k0, v0⟩ := hd
      simp only [assocGet, List.cons_append] at h ⊢
      split at h
      · simpa [‹k0 = k›] using h
      · simpa [‹¬ k0 = k›] using ih h

theorem assocGet_append_right {α : Type} {l1 : List (String × α)}
    (l2 : List (String × α)) {k : String}
    (h : assocGet l1 k = Option.none) : assocGet (l1 ++ l2) k = assocGet l2 k := by
  induction l1 with
  | nil => simp
  | cons hd tl ih =>
      obtain ⟨k0, v0⟩ := hd
      simp only [assocGet, List.cons_append] at h ⊢
      split at h
      · cases h
      · simpa [‹¬ k0 = k›] using ih h

theorem assocGet_eq_none_of_not_mem {α : Type} {l : List (String × α)}
    {k : String} (h : ¬ k ∈ l.map Prod.fst) : assocGet l k = Option.none := by
  induction l with
  | nil => simp [assocGet]
  | cons hd tl ih =>
      obtain ⟨k0, v0⟩ := hd
      simp only [List.map_cons, List.mem_cons] at h
      push_neg at h
      have h1 : ¬ (k0 = k) := fun he => h.1 he.symm
      simp [assocGet, h1, ih h.2]

theorem assocGet_mem_of_eq_some {α : Type} {l : List (String × α)}
    {k : String} {v : α} (h : assocGet l k = some v) : (k, v) ∈ l := by
  induction l with
  | nil => simp [assocGet] at h
  | cons hd tl ih =>
      obtain ⟨k0, v0⟩ := hd
      simp only [assocGet] at h
      split at h
      · cases h
        subst ‹k0 = k›
        simp
      · simp [ih h]

/-! ## `pickBest` (the `struct_map` dict + `max`) characterization -/

theorem pickBest_go (cands : List (Nat × SchemeDef)) :
    ∀ q : Nat × SchemeDef, ∃ r,
      cands.foldl
        (fun acc p =>
          match acc with
          | Option.none => some p
          | some q' => if q'.1 ≤ p.1 then some p else some q') (some q) = some r ∧
      ∃ l1 l2, q :: cands = l1 ++ r :: l2 ∧
        (∀ x ∈ l1, x.1 ≤ r.1) ∧ (∀ x ∈ l2, x.1 < r.1) := by
  induction cands with
  | nil => intro q; exact ⟨q, rfl, [], [], rfl, by simp, by simp⟩
  | cons p rest ih =>
      intro q
      by_cases hle : q.1 ≤ p.1
      · obtain ⟨r, hr, l1, l2, hdec, hb1, hb2⟩ := ih p
        have hp : p.1 ≤ r.1 := by
          rcases l1 with _ | ⟨y, l1'⟩
          · have : p = r := by simpa using congrArg (fun l => l.head?) hdec
            simp [this]
          · have hy : p = y := by simpa using congrArg (fun l => l.head?) hdec
            exact hy ▸ hb1 y (by simp)
        refine ⟨r, by simpa [hle] using hr, q :: l1, l2, by simp [hdec], ?_, hb2⟩
        intro x hx
        rcases List.mem_cons.mp hx with rfl | hx
        · exact le_trans hle hp
        · exact hb1 x hx
      · obtain ⟨r, hr, l1, l2, hdec, hb1, hb2⟩ := ih q
        push_neg at hle
        rcases l1 with _ | ⟨y, l1'⟩
        · have hrq : q = r := by simpa using congrArg (fun l => l.head?) hdec
          have hrest : rest = l2 := by
            have := congrArg (fun l => l.tail) hdec
            simpa using this
          refine ⟨r, by simpa [Nat.not_le.mpr hle] using hr, [], p :: l2,
            by simp [hrq.symm, hrest], by simp, ?_⟩
          intro x hx
          rcases List.mem_cons.mp hx with rfl | hx
          · exact hrq ▸ hle
          · exact hb2 x hx
        · have hy : q = y := by simpa using congrArg (fun l => l.head?) hdec
          have htl : rest = l1' ++ r :: l2 := by
            have := congrArg (fun l => l.tail) hdec
            simpa using this
          have hq : q.1 ≤ r.1 := hy ▸ hb1 y (by simp)
          refine ⟨r, by simpa [Nat.not_le.mpr hle] using hr, q :: p :: l1', l2,
            by simp [htl], ?_, hb2⟩
          intro x hx
          rcases List.mem_cons.mp hx with rfl | hx
          · exact hq
          · rcases List.mem_cons.mp hx with rfl | hx
            · exact le_trans (le_of_lt hle) hq
            · exact hb1 x (by simp [hy.symm, hx])

/-- `pickBest` returns the last candidate achieving the maximum score:
the input splits as `l1 ++ r :: l2` with everything in `l1` scoring at
most `r` and everything after `r` scoring strictly below it. -/
theorem pickBest_spec {cands : List (Nat × SchemeDef)} (h : cands ≠ []) :
    ∃ r, pickBest cands = some r ∧
      ∃ l1 l2, cands = l1 ++ r :: l2 ∧
        (∀ x ∈ l1, x.1 ≤ r.1) ∧ (∀ x ∈ l2, x.1 < r.1) := by
  rcases cands with _ | ⟨c, rest⟩
  · exact absurd rfl h
  · obtain ⟨r, hr, l1, l2, hdec, hb1, hb2⟩ := pickBest_go rest c
    exact ⟨r, by simpa [pickBest] using hr, l1, l2, hdec, hb1, hb2⟩

/-! ## Well-formed schema declarations

Python guarantees distinct field names (class-dict keys).  Nothing in the
library prevents an alias from colliding with another field's name or with
another alias; `cleanScheme` singles out the declarations free of such
collisions. -/

/-- A scheme declaration with distinct field names, distinct alias names,
and no alias equal to any declared field name. -/
def cleanScheme (cls : SchemeDef) : Prop :=
  (cls.fields.map (·.name)).Nodup ∧
  (cls.fields.filterMap (·.al)).Nodup ∧
  (∀ fd ∈ cls.fields, ∀ a, fd.al = some a → ¬ a ∈ cls.fields.map (·.name))

theorem aliasPairs_go (fs : List FieldDecl) :
    ∀ acc : List (String × String),
      (∀ f ∈ fs, ∀ a, f.al = some a → a ≠ f.name) →
      ((acc.map Prod.fst) ++ fs.filterMap (·.al)).Nodup →
      fs.foldl
        (fun acc f =>
          match f.al with
          | some a => if a = f.name then acc else insertReplace acc a f.name
          | Option.none => acc) acc
        = acc ++ fs.filterMap (fun fd => fd.al.map (fun a => (a, fd.name))) := by
  induction fs with
  | nil => intro acc _ _; simp
  | cons f fs ih =>
      intro acc hne hnd
      cases hal : f.al with
      | none =>
          simp only [List.foldl_cons, hal]
          rw [ih acc (fun g hg => hne g (List.mem_cons_of_mem f hg))
            (by simpa [List.filterMap_cons, hal] using hnd)]
          simp [List.filterMap_cons, hal]
      | some a =>
          have hna : a ≠ f.name := hne f (by simp) a hal
          have hmem : ¬ a ∈ acc.map Prod.fst := by
            simp only [List.filterMap_cons, hal] at hnd
            intro hx
            exact (List.disjoint_of_nodup_append hnd) hx (by simp)
          simp only [List.foldl_cons, hal, if_neg hna,
            insertReplace_of_not_mem acc _ hmem]
          rw [ih (acc ++ [(a, f.name)])
            (fun g hg => hne g (List.mem_cons_of_mem f hg)) ?_]
          · simp [List.filterMap_cons, hal]
          · simpa [List.filterMap_cons, hal] using hnd

/-- On a clean scheme, `_aliases` is just the per-field alias pairs in
declaration order. -/
theorem aliasPairs_eq_filterMap {cls : SchemeDef} (h : cleanScheme cls) :
    aliasPairs cls
      = cls.fields.filterMap (fun fd => fd.al.map (fun a => (a, fd.name))) := by
  have := aliasPairs_go cls.fields []
    (fun f hf a ha => by
      intro he
      exact h.2.2 f hf a ha (he ▸ List.mem_map_of_mem (·.name) hf))
    (by simpa using h.2.1)
  simpa [aliasPairs] using this

theorem fieldNames_eq_map {cls : SchemeDef}
    (h : (cls.fields.map (·.name)).Nodup) :
    fieldNames cls = cls.fields.map (·.name) := by
  simp [fieldNames, List.Nodup.dedup h]

theorem mem_fieldNames {cls : SchemeDef} {k : String} :
    k ∈ fieldNames cls ↔ k ∈ cls.fields.map (·.name) := by
  simp [fieldNames]

/-- Keys sharing nothing with a scheme's fields and aliases give it
coverage zero. -/
theorem coverage_eq_zero {cls : SchemeDef} {keys : List String}
    (h : ∀ k ∈ keys, ¬ k ∈ fieldNames cls ∧ ¬ k ∈ aliasKeys cls) :
    coverage cls keys = 0 := by
  have h1 : (fieldNames cls).filter (fun f => keys.contains f) = [] := by
    rw [List.filter_eq_nil_iff]
    intro f hf hk
    exact (h f (by simpa using hk)).1 hf
  have h2 : (aliasKeys cls).filter (fun a => keys.contains a) = [] := by
    rw [List.filter_eq_nil_iff]
    intro a ha hk
    exact (h a (by simpa using hk)).2 ha
  simp only [coverage, h1, h2, List.length_nil]

/-- A field or alias name present in the key set gives positive coverage. -/
theorem coverage_pos {cls : SchemeDef} {keys : List String} {k : String}
    (h : (k ∈ fieldNames cls ∨ k ∈ aliasKeys cls) ∧ k ∈ keys) :
    0 < coverage cls keys := by
  obtain ⟨hk, hmem⟩ := h
  have hcont : keys.contains k = true := by simpa using hmem
  rcases hk with hk | hk
  · have hmf : k ∈ (fieldNames cls).filter (fun f => keys.contains f) :=
      List.mem_filter.mpr ⟨hk, hcont⟩
    have := List.length_pos.mpr (List.ne_nil_of_mem hmf)
    simp only [coverage]
    omega
  · have hmf : k ∈ (aliasKeys cls).filter (fun a => keys.contains a) :=
      List.mem_filter.mpr ⟨hk, hcont⟩
    have := List.length_pos.mpr (List.ne_nil_of_mem hmf)
    simp only [coverage]
    omega

/-! ## Reflexivity and containment for Python `==` -/

theorem listEq_self (env : Env) {l : List Val}
    (ih : ∀ w ∈ l, pyEq env w w = true) : listEq env l l = true := by
  induction l with
  | nil => simp [listEq]
  | cons v r ihr =>
      simp only [listEq, Bool.and_eq_true]
      exact ⟨ih v (by simp), ihr (fun w hw => ih w (by simp [hw]))⟩

theorem mapKeysEq_self (env : Env) {e : List (String × Val)}
    (ih : ∀ w, sizeOf w ≤ sizeOf e → pyEq env w w = true) :
    ∀ ks, mapKeysEq env e e ks = true := by
  intro ks
  induction ks with
  | nil => simp [mapKeysEq]
  | cons k ks ihk =>
      simp only [mapKeysEq, Bool.and_eq_true]
      exact ⟨ih _ (assocGetD_sizeOf_le e k), ihk⟩

theorem instKeysEq_self (env : Env) {t : String} {slots : List (String × Val)}
    (ih : ∀ w, sizeOf w ≤ sizeOf slots → pyEq env w w = true) :
    ∀ ks, (∀ k ∈ ks, mapContains env (Val.inst t slots) k = true) →
      instKeysEq env t slots (Val.inst t slots) ks = true := by
  intro ks
  induction ks with
  | nil => intro _; simp [instKeysEq]
  | cons k ks ihk =>
      intro hc
      simp only [instKeysEq, hc k (by simp), if_true, Bool.and_eq_true]
      exact ⟨ih _ (getItemD_inst_sizeOf_le env t slots k),
        ihk (fun k' hk' => hc k' (by simp [hk']))⟩

theorem iterKeys_mapContains (env : Env) (t : String)
    (slots : List (String × Val)) :
    ∀ k ∈ iterKeysInst env t, mapContains env (Val.inst t slots) k = true := by
  intro k hk
  simp only [iterKeysInst] at hk
  cases hl : lookupScheme env t with
  | none => rw [hl] at hk; simp at hk
  | some s =>
      rw [hl] at hk
      simp only [mapContains, hl, Bool.or_eq_true]
      rcases List.mem_append.mp hk with hk | hk
      · right; simpa using hk
      · left; simpa using (List.mem_filter.mp hk).1

theorem pyEq_refl_aux (env : Env) :
    ∀ (n : Nat) (v : Val), sizeOf v ≤ n → pyEq env v v = true := by
  intro n
  induction n with
  | zero =>
      intro v hv
      have := val_sizeOf_pos v
      omega
  | succ n ih =>
      intro v hv
      cases v with
      | none => simp [pyEq]
      | int i => simp [pyEq]
      | str s => simp [pyEq]
      | list l =>
          have hls : sizeOf l ≤ n := by simp at hv; omega
          simp only [pyEq]
          exact listEq_self env (fun w hw => by
            have : sizeOf w < sizeOf l := by
              have := List.sizeOf_lt_of_mem hw
              omega
            exact ih w (by omega))
      | map e =>
          have hes : sizeOf e ≤ n := by simp at hv; omega
          simp only [pyEq, Bool.and_eq_true]
          refine ⟨⟨?_, ?_⟩, ?_⟩
          · simp [List.all_eq_true]
          · simp [List.all_eq_true]
          · exact mapKeysEq_self env (fun w hw => ih w (by omega)) _
      | inst t slots =>
          have hss : sizeOf slots ≤ n := by simp at hv; omega
          simp only [pyEq, isMappingVal, Bool.true_and]
          exact instKeysEq_self env (fun w hw => ih w (by omega)) _
            (iterKeys_mapContains env t slots)

/-- Python `==` is reflexive on the embedded universe (no floats, so no
`NaN`). -/
theorem pyEq_refl (env : Env) (v : Val) : pyEq env v v = true :=
  pyEq_refl_aux env (sizeOf v) v (le_refl _)

/-- The containment direction of `Scheme.__eq__`: a mapping that contains
every iteration key of the scheme with the very same value compares equal,
whatever other keys it holds. -/
theorem instKeysEq_of_pointwise (env : Env) (t : String)
    (slots : List (String × Val)) (m : Val) :
    ∀ ks, (∀ k ∈ ks, mapContains env m k = true ∧
        getItemD env m k = getItemD env (Val.inst t slots) k) →
      instKeysEq env t slots m ks = true := by
  intro ks
  induction ks with
  | nil => intro _; simp [instKeysEq]
  | cons k ks ihk =>
      intro hc
      obtain ⟨hcon, hval⟩ := hc k (by simp)
      simp only [instKeysEq, hcon, if_true, Bool.and_eq_true, hval]
      exact ⟨pyEq_refl env _, ihk (fun k' hk' => hc k' (by simp [hk']))⟩

theorem insertReplace_map_fst {α : Type} (l : List (String × α)) (k : String)
    (v : α) :
    (insertReplace l k v).map Prod.fst
      = if k ∈ l.map Prod.fst then l.map Prod.fst
        else l.map Prod.fst ++ [k] := by
  induction l with
  | nil => simp [insertReplace]
  | cons hd tl ih =>
      obtain ⟨k0, v0⟩ := hd
      by_cases h0 : k0 = k
      · subst h0; simp [insertReplace]
      · have h0' : ¬ (k = k0) := fun he => h0 he.symm
        simp only [insertReplace, if_neg h0, List.map_cons, ih]
        by_cases hk : k ∈ tl.map Prod.fst
        · simp [hk, h0']
        · simp [hk, h0']

theorem nodup_insertReplace_map_fst {α : Type} {l : List (String × α)}
    (h : (l.map Prod.fst).Nodup) (k : String) (v : α) :
    ((insertReplace l k v).map Prod.fst).Nodup := by
  rw [insertReplace_map_fst]
  split
  · exact h
  · simp only [List.nodup_append, List.nodup_singleton, true_and]
    exact ⟨h, by simpa [List.disjoint_singleton] using ‹¬ k ∈ l.map Prod.fst›⟩

theorem aliasKeys_nodup (cls : SchemeDef) : (aliasKeys cls).Nodup := by
  suffices h : ∀ (fs : List FieldDecl) (acc : List (String × String)),
      (acc.map Prod.fst).Nodup →
      ((fs.foldl
        (fun acc f =>
          match f.al with
          | some a => if a = f.name then acc else insertReplace acc a f.name
          | Option.none => acc) acc).map Prod.fst).Nodup by
    exact h cls.fields [] (by simp)
  intro fs
  induction fs with
  | nil => intro acc hacc; simpa using hacc
  | cons f fs ih =>
      intro acc hacc
      cases hal : f.al with
      | none => simpa [hal] using ih acc hacc
      | some a =>
          by_cases hfn : a = f.name
          · simpa [hal, hfn] using ih acc hacc
          · simpa [hal, hfn] using
              ih (insertReplace acc a f.name) (nodup_insertReplace_map_fst hacc a f.name)

theorem map_decomp {α β : Type} (f : α → β) :
    ∀ {l : List α} {l1 : List β} {b : β} {l2 : List β},
      l.map f = l1 ++ b :: l2 →
      ∃ m1 x m2, l = m1 ++ x :: m2 ∧ f x = b ∧ m1.map f = l1 ∧ m2.map f = l2 := by
  intro l l1
  induction l1 generalizing l with
  | nil =>
      intro b l2 h
      cases l with
      | nil => simp at h
      | cons x l' =>
          simp only [List.map_cons, List.nil_append] at h
          exact ⟨[], x, l', by simp, (List.cons.injEq _ _ _ _ ▸ h).1,
            rfl, (List.cons.injEq _ _ _ _ ▸ h).2⟩
  | cons c l1' ih =>
      intro b l2 h
      cases l with
      | nil => simp at h
      | cons x l' =>
          simp only [List.map_cons, List.cons_append, List.cons.injEq] at h
          obtain ⟨m1, y, m2, hdec, hfy, hm1, hm2⟩ := ih h.2
          exact ⟨x :: m1, y, m2, by simp [hdec], hfy, by simp [hm1, h.1], hm2⟩

/-! ## Claim C1 — the coverage score -/

/-- Modelled from the spec's words for claim C1: the count of members of
(declared field names ∪ declared alias names) that lie in the key set. -/
def coverageSpec (cls : SchemeDef) (keys : List String) : Nat :=
  (((fieldNames cls) ++ aliasKeys cls).dedup.filter
    (fun k => keys.contains k)).length

/-- A scheme whose second field's alias collides with the first field's
name: `class S(Scheme): y = Field(); x = Field(alias='y')`. -/
def overlapScheme : SchemeDef :=
  ⟨"S", [⟨"y", Option.none, [], [], Option.none, .plain⟩,
         ⟨"x", some "y", [], [], Option.none, .plain⟩], false, Option.none⟩

/-- Claim C1 is false as stated: on `overlapScheme` and the key set
`{"y"}`, `coverage` counts the name `y` twice (once as a field, once as
an alias), while the count of the union `{x, y} ∪ {y}` intersected with
`{"y"}` is `1`. -/
theorem c1_coverage_counterexample :
    coverage overlapScheme ["y"] = 2 ∧ coverageSpec overlapScheme ["y"] = 1 ∧
      ¬ coverage overlapScheme ["y"] = coverageSpec overlapScheme ["y"] := by
  refine ⟨by decide, by decide, by decide⟩

/-- Claim C1 (amended): `Scheme.coverage(K)` is the sum
`|fields ∩ K| + |aliases ∩ K|`; whenever the declared alias names are
disjoint from the declared field names (every scheme without a
field-name/alias collision) this equals the count of
(field names ∪ alias names) ∩ K from the spec. -/
theorem c1_coverage_amended {cls : SchemeDef} {keys : List String}
    (hdisj : ∀ a ∈ aliasKeys cls, ¬ a ∈ fieldNames cls) :
    coverage cls keys = coverageSpec cls keys := by
  have hnodup : ((fieldNames cls) ++ aliasKeys cls).Nodup := by
    rw [List.nodup_append]
    exact ⟨List.nodup_dedup _, aliasKeys_nodup cls, fun a ha hb => hdisj a hb ha⟩
  rw [coverageSpec, List.Nodup.dedup hnodup, List.filter_append, List.length_append]
  rfl

/-- A collision-free scheme: `x` with alias `ax`, plus `y`. -/
def cleanTwoField : SchemeDef :=
  ⟨"A", [⟨"x", some "ax", [], [], Option.none, .plain⟩,
         ⟨"y", Option.none, [], [], Option.none, .plain⟩], false, Option.none⟩

theorem c1_coverage_amended_witness :
    (∀ a ∈ aliasKeys cleanTwoField, ¬ a ∈ fieldNames cleanTwoField) ∧
      coverage cleanTwoField ["ax", "y", "zz"]
        = coverageSpec cleanTwoField ["ax", "y", "zz"] :=
  ⟨by decide, c1_coverage_amended (by decide)⟩

/-! ## Claims C2 and C3 — polymorphic dispatch and the no-match error -/

/-- Claim C2: `from_dict` on a root (abstract) scheme scores every direct
subclass against the mapping's key set and proceeds exactly as `from_dict`
on the selected subclass: the one achieving the maximum score, and, among
subclasses tied at the maximum, the one encountered last in the subclass
iteration (everything after the selected subclass scores strictly lower). -/
theorem c2_root_dispatch (env : Env) (n : Nat) (cls : SchemeDef) (d : Val)
    (hroot : cls.root = true)
    (hne : subsOf env cls ≠ [])
    (hconc : ∀ s ∈ subsOf env cls, s.root = false) :
    ∃ l1 sel l2,
      subsOf env cls = l1 ++ sel :: l2 ∧
      (∀ s ∈ subsOf env cls,
        coverage s (keysOfVal env d) ≤ coverage sel (keysOfVal env d)) ∧
      (∀ s ∈ l2, coverage s (keysOfVal env d) < coverage sel (keysOfVal env d)) ∧
      fromDict env (n + 1) cls d = fromDict env (n + 1) sel d := by
  set keys := keysOfVal env d with hkeys
  have hcne : (subsOf env cls).map (fun s => (coverage s keys, s)) ≠ [] := by
    simpa using hne
  obtain ⟨r, hpick, m1, m2, hdec, hb1, hb2⟩ := pickBest_spec hcne
  obtain ⟨l1, sel, l2, hsplit, hfsel, hm1, hm2⟩ := map_decomp _ hdec
  have hrsel : r = (coverage sel keys, sel) := hfsel.symm
  refine ⟨l1, sel, l2, hsplit, ?_, ?_, ?_⟩
  · intro s hs
    have : (coverage s keys, s) ∈ (subsOf env cls).map (fun s => (coverage s keys, s)) :=
      List.mem_map_of_mem _ hs
    rw [hdec] at this
    rcases List.mem_append.mp this with h | h
    · have := hb1 _ h; rw [hrsel] at this; exact this
    · rcases List.mem_cons.mp h with h | h
      · rw [show s = sel from congrArg Prod.snd (h.trans hrsel)]
      · have := hb2 _ h; rw [hrsel] at this; exact le_of_lt this
  · intro s hs
    have hmem : (coverage s keys, s) ∈ m2 := by
      rw [← hm2]; exact List.mem_map_of_mem _ hs
    have := hb2 _ hmem; rw [hrsel] at this; exact this
  · have hselroot : sel.root = false :=
      hconc sel (hsplit ▸ List.mem_append_right l1 (List.mem_cons_self sel l2))
    by_cases hd : isMappingVal d
    · simp only [fromDict, hd, if_true, selectCls, hroot, if_true, hselroot,
        Bool.false_eq_true, if_false, ← hkeys, hpick, hrsel]
    · simp only [fromDict, hd, Bool.false_eq_true, if_false]

/-- The abstract root with two concrete subtypes from the spec's
polymorphic-dispatch scenario: `A` with fields `{x, y}`, `B` with fields
`{x, z}`. -/
def rootRT : SchemeDef := ⟨"RT", [], true, Option.none⟩

def subA : SchemeDef :=
  ⟨"A", [⟨"x", Option.none, [], [], Option.none, .plain⟩,
         ⟨"y", Option.none, [], [], Option.none, .plain⟩], false, some "RT"⟩

def subB : SchemeDef :=
  ⟨"B", [⟨"x", Option.none, [], [], Option.none, .plain⟩,
         ⟨"z", Option.none, [], [], Option.none, .plain⟩], false, some "RT"⟩

def envRT : Env := [rootRT, subA, subB]

theorem c2_root_dispatch_witness :
    rootRT.root = true ∧ subsOf envRT rootRT ≠ [] ∧
      (∀ s ∈ subsOf envRT rootRT, s.root = false) ∧
      ∃ l1 sel l2,
        subsOf envRT rootRT = l1 ++ sel :: l2 ∧
        (∀ s ∈ subsOf envRT rootRT,
          coverage s (keysOfVal envRT (.map [("x", .int 1), ("z", .int 2)]))
            ≤ coverage sel (keysOfVal envRT (.map [("x", .int 1), ("z", .int 2)]))) ∧
        (∀ s ∈ l2,
          coverage s (keysOfVal envRT (.map [("x", .int 1), ("z", .int 2)]))
            < coverage sel (keysOfVal envRT (.map [("x", .int 1), ("z", .int 2)]))) ∧
        fromDict envRT 3 rootRT (.map [("x", .int 1), ("z", .int 2)])
          = fromDict envRT 3 sel (.map [("x", .int 1), ("z", .int 2)]) := by
  have hsubs : subsOf envRT rootRT = [subA, subB] := by
    simp [subsOf, envRT, rootRT, subA, subB, List.filter]
  refine ⟨rfl, by simp [hsubs], ?_, ?_⟩
  · intro s hs
    rw [hsubs] at hs
    rcases List.mem_cons.mp hs with rfl | hs
    · rfl
    · rcases List.mem_cons.mp hs with rfl | hs
      · rfl
      · simp at hs
  · exact c2_root_dispatch envRT 2 rootRT (.map [("x", .int 1), ("z", .int 2)])
      rfl (by simp [hsubs]) (by
        intro s hs
        rw [hsubs] at hs
        rcases List.mem_cons.mp hs with rfl | hs
        · rfl
        · rcases List.mem_cons.mp hs with rfl | hs
          · rfl
          · simp at hs)

/-- Claim C3: a mapping (including the empty one) whose keys share no
member with any candidate's declared field or alias names makes
`from_dict` raise the no-match `SchemaError`, which names a candidate
type, its fields and the offending mapping — never a `FieldTypeError`.
The candidates are the direct subclasses for a root scheme (at least one
must exist) and the receiving scheme itself otherwise. -/
theorem c3_no_match (env : Env) (n : Nat) (cls : SchemeDef) (d : Val)
    (hd : isMappingVal d = true)
    (hne : cls.root = true → subsOf env cls ≠ [])
    (hdisj : ∀ c ∈ (if cls.root then subsOf env cls else [cls]),
        ∀ k ∈ keysOfVal env d, ¬ k ∈ fieldNames c ∧ ¬ k ∈ aliasKeys c) :
    ∃ sel ∈ (if cls.root then subsOf env cls else [cls]),
      fromDict env (n + 1) cls d
          = .error (.schemaNoMatch sel.name (fieldNames sel) d) ∧
      ∀ f o v, ¬ fromDict env (n + 1) cls d = .error (.fieldTypeErr f o v) := by
  set keys := keysOfVal env d with hkeys
  cases hroot : cls.root with
  | false =>
      have hz : coverage cls keys = 0 :=
        coverage_eq_zero (by simpa [hroot] using hdisj cls (by simp [hroot]))
      refine ⟨cls, by simp [hroot], ?_, ?_⟩
      · simp only [fromDict, hd, if_true, selectCls, hroot, Bool.false_eq_true,
          if_false, ← hkeys, hz, if_pos rfl]
      · intro f o v
        simp only [fromDict, hd, if_true, selectCls, hroot, Bool.false_eq_true,
          if_false, ← hkeys, hz, if_pos rfl]
        intro hcontra
        cases hcontra
  | true =>
      have hcne : (subsOf env cls).map (fun s => (coverage s keys, s)) ≠ [] := by
        simpa using hne hroot
      obtain ⟨r, hpick, m1, m2, hdec, _, _⟩ := pickBest_spec hcne
      obtain ⟨l1, sel, l2, hsplit, hfsel, _, _⟩ := map_decomp _ hdec
      have hselmem : sel ∈ subsOf env cls :=
        hsplit ▸ List.mem_append_right l1 (List.mem_cons_self sel l2)
      have hz : coverage sel keys = 0 :=
        coverage_eq_zero (by simpa [hroot] using hdisj sel (by simp [hroot, hselmem]))
      have hrsel : r = (0, sel) := by rw [← hfsel, hz]
      refine ⟨sel, by simp [hroot, hselmem], ?_, ?_⟩
      · simp only [fromDict, hd, if_true, selectCls, hroot, if_true, ← hkeys,
          hpick, hrsel, if_pos rfl]
      · intro f o v
        simp only [fromDict, hd, if_true, selectCls, hroot, if_true, ← hkeys,
          hpick, hrsel, if_pos rfl]
        intro hcontra
        cases hcontra

theorem c3_no_match_witness :
    isMappingVal (.map ([] : List (String × Val))) = true ∧
      (rootRT.root = true → subsOf envRT rootRT ≠ []) ∧
      ∃ sel ∈ (if rootRT.root then subsOf envRT rootRT else [rootRT]),
        fromDict envRT 5 rootRT (.map [])
            = .error (.schemaNoMatch sel.name (fieldNames sel) (.map [])) ∧
        ∀ f o v, ¬ fromDict envRT 5 rootRT (.map [])
            = .error (.fieldTypeErr f o v) := by
  have hsubs : subsOf envRT rootRT = [subA, subB] := by
    simp [subsOf, envRT, rootRT, subA, subB, List.filter]
  refine ⟨rfl, fun _ => by simp [hsubs], ?_⟩
  exact c3_no_match envRT 4 rootRT (.map []) rfl (fun _ => by simp [hsubs])
    (by intro c hc k hk; simp [keysOfVal] at hk)

/-- Manual unfolding of `fieldSetE` on a `plain`-kind field (the
automatic unfolding theorem fails to generate for this mutual
definition). -/
theorem fieldSetE_plain_eq (env : Env) (n : Nat) (owner : String)
    (fd : FieldDecl) (st : List (String × Val)) (v : Val)
    (hk : fd.kind = FieldKind.plain) :
    fieldSetE env n owner fd st v
      = if fd.type.isEmpty && fd.schemeNames.isEmpty then afterStore owner fd st v
        else if isInstanceOf env v fd.type then afterStore owner fd st v
        else if isMappingVal v && isStruct fd then
          match getStruct env fd (keysOfVal env v) with
          | .error e => .error e
          | .ok c =>
              match fromDict env n c v with
              | .error e => .error e
              | .ok w => afterStore owner fd st w
        else .error (.fieldTypeErr fd.name owner v) := by
  obtain ⟨nm, alf, ty, sn, vl, kd⟩ := fd
  subst hk
  cases v with
  | none => rw [fieldSetE.eq_1]
  | list l => rw [fieldSetE.eq_2]
  | int i =>
      rw [fieldSetE.eq_3 env n owner _ st _ (fun h => by cases h)
        (fun l h => by cases h)]
  | str s =>
      rw [fieldSetE.eq_3 env n owner _ st _ (fun h => by cases h)
        (fun l h => by cases h)]
  | map e =>
      rw [fieldSetE.eq_3 env n owner _ st _ (fun h => by cases h)
        (fun l h => by cases h)]
  | inst t sl =>
      rw [fieldSetE.eq_3 env n owner _ st _ (fun h => by cases h)
        (fun l h => by cases h)]

/-- Manual unfolding of `fieldSetE` on a `list`-kind field. -/
theorem fieldSetE_list_eq (env : Env) (n : Nat) (owner : String)
    (fd : FieldDecl) (st : List (String × Val)) (v : Val)
    (hk : fd.kind = FieldKind.list) :
    fieldSetE env n owner fd st v
      = match v with
        | .none => .ok (insertReplace st fd.name .none)
        | .list l =>
            match unpackList env n owner fd l with
            | .ok out => .ok (insertReplace st fd.name (.list out))
            | .error e => .error e
        | _ => .error .assertionErr := by
  obtain ⟨nm, alf, ty, sn, vl, kd⟩ := fd
  subst hk
  cases v with
  | none => rw [fieldSetE.eq_1]
  | list l => rw [fieldSetE.eq_2]
  | int i =>
      rw [fieldSetE.eq_3 env n owner _ st _ (fun h => by cases h)
        (fun l h => by cases h)]
  | str s =>
      rw [fieldSetE.eq_3 env n owner _ st _ (fun h => by cases h)
        (fun l h => by cases h)]
  | map e =>
      rw [fieldSetE.eq_3 env n owner _ st _ (fun h => by cases h)
        (fun l h => by cases h)]
  | inst t sl =>
      rw [fieldSetE.eq_3 env n owner _ st _ (fun h => by cases h)
        (fun l h => by cases h)]

theorem unpackList_nil_eq (env : Env) (n : Nat) (owner : String)
    (fd : FieldDecl) : unpackList env n owner fd [] = .ok [] := by
  rw [unpackList.eq_1]

/-- Manual unfolding of `unpackList` on a non-empty list. -/
theorem unpackList_cons_eq (env : Env) (n : Nat) (owner : String)
    (fd : FieldDecl) (v : Val) (rest : List Val) :
    unpackList env n owner fd (v :: rest)
      = if isInstanceOf env v fd.type then
          match unpackList env n owner fd rest with
          | .ok out => .ok (v :: out)
          | .error e => .error e
        else if isMappingVal v && isStruct fd then
          match getStruct env fd (keysOfVal env v) with
          | .error e => .error e
          | .ok c =>
              match fromDict env n c v with
              | .error e => .error e
              | .ok w =>
                  match unpackList env n owner fd rest with
                  | .ok out => .ok (w :: out)
                  | .error e => .error e
        else
          match v with
          | .list l =>
              match unpackList env n owner fd l with
              | .error e => .error e
              | .ok inner =>
                  match unpackList env n owner fd rest with
                  | .ok out => .ok (.list inner :: out)
                  | .error e => .error e
          | _ => .error (.fieldTypeErr fd.name owner v) := by
  cases v with
  | list l => rw [unpackList.eq_2]
  | none => rw [unpackList.eq_3 env n owner fd _ rest (fun l h => by cases h)]
  | int i => rw [unpackList.eq_3 env n owner fd _ rest (fun l h => by cases h)]
  | str s => rw [unpackList.eq_3 env n owner fd _ rest (fun l h => by cases h)]
  | map e => rw [unpackList.eq_3 env n owner fd _ rest (fun l h => by cases h)]
  | inst t sl =>
      rw [unpackList.eq_3 env n owner fd _ rest (fun l h => by cases h)]

/-! ## Claim C6 — the scalar field write contract -/

/-- Claim C6: `Field.__set__` (no validator configured, so the coercion
result is what stays stored).  A field with no declared types and no
scheme names stores every value unchanged; a value of a declared type is
stored unchanged; otherwise a `Mapping` value on a structural field
stores the recursively resolved and built scheme; otherwise the
assignment raises `FieldTypeError`. -/
theorem c6_field_write (env : Env) (n : Nat) (owner : String) (fd : FieldDecl)
    (st : List (String × Val)) (v : Val)
    (hk : fd.kind = .plain) (hval : fd.validator = Option.none) :
    ((fd.type = [] ∧ fd.schemeNames = []) →
        fieldSetE env n owner fd st v = .ok (insertReplace st fd.name v)) ∧
    (isInstanceOf env v fd.type = true →
        fieldSetE env n owner fd st v = .ok (insertReplace st fd.name v)) ∧
    ((¬ (fd.type = [] ∧ fd.schemeNames = [])) →
      isInstanceOf env v fd.type = false →
      isMappingVal v = true → isStruct fd = true →
        fieldSetE env n owner fd st v
          = match getStruct env fd (keysOfVal env v) with
            | .error e => .error e
            | .ok c =>
                match fromDict env n c v with
                | .error e => .error e
                | .ok w => .ok (insertReplace st fd.name w)) ∧
    ((¬ (fd.type = [] ∧ fd.schemeNames = [])) →
      isInstanceOf env v fd.type = false →
      ¬ (isMappingVal v = true ∧ isStruct fd = true) →
        fieldSetE env n owner fd st v = .error (.fieldTypeErr fd.name owner v)) := by
  have hunf := fieldSetE_plain_eq env n owner fd st v hk
  have hfirstf : ¬ (fd.type = [] ∧ fd.schemeNames = []) →
      (fd.type.isEmpty && fd.schemeNames.isEmpty) = false := by
    intro hne
    rcases not_and_or.mp hne with h | h
    · rcases hh : fd.type with _ | ⟨a, l⟩
      · exact absurd hh h
      · rfl
    · rcases hh : fd.schemeNames with _ | ⟨a, l⟩
      · exact absurd hh h
      · simp
  refine ⟨?_, ?_, ?_, ?_⟩
  · intro hty
    rw [hunf, hty.1, hty.2]
    simp [afterStore, hval]
  · intro hinst
    have hne' : fd.type ≠ [] := by
      intro h0
      rw [h0] at hinst
      simp [isInstanceOf] at hinst
    rw [hunf]
    rcases hty : fd.type with _ | ⟨t0, ts⟩
    · exact absurd hty hne'
    · rw [hty] at hinst
      simp [hinst, afterStore, hval]
  · intro hne hinst hmap hstruct
    rw [hunf]
    simp only [hfirstf hne, Bool.false_eq_true, if_false, hinst, hmap,
      hstruct, Bool.and_self, if_true]
    simp [afterStore, hval]
  · intro hne hinst hmapstruct
    have hthird : (isMappingVal v && isStruct fd) = false := by
      rcases not_and_or.mp hmapstruct with h | h
      · simp [Bool.eq_false_iff.mpr h]
      · simp [Bool.eq_false_iff.mpr h]
    rw [hunf]
    simp [hfirstf hne, hinst, hthird]

def fdIntW : FieldDecl := ⟨"w", Option.none, [.intTy], [], Option.none, .plain⟩

theorem c6_field_write_witness :
    fdIntW.kind = .plain ∧ fdIntW.validator = Option.none ∧
      isInstanceOf [] (.int 5) fdIntW.type = true ∧
      fieldSetE [] 1 "Own" fdIntW [] (.int 5) = .ok [("w", .int 5)] := by
  refine ⟨rfl, rfl, by decide, ?_⟩
  have h := (c6_field_write [] 1 "Own" fdIntW [] (.int 5) rfl rfl).2.1 (by decide)
  simpa [insertReplace] using h

/-! ## Claim C7 — validators -/

/-- A validator that raises on every input. -/
def alwaysRaise : Val → Option Val := fun _ => Option.none

/-- A `ListField` whose validator raises on everything. -/
def fdListV : FieldDecl := ⟨"xs", Option.none, [.intTy], [], some alwaysRaise, .list⟩

/-- Claim C7 is false as stated: `ListField.__set__` never calls
`Field.validate`, so a list field configured with an always-raising
validator still stores the list and raises no `FieldValidationError`. -/
theorem c7_validator_counterexample :
    fdListV.validator = some alwaysRaise ∧
    (∀ w, alwaysRaise w = Option.none) ∧
    fieldSetE [] 1 "W" fdListV [] (.list [.int 1]) = .ok [("xs", .list [.int 1])] ∧
    (∀ w, ¬ fieldSetE [] 1 "W" fdListV [] (.list [.int 1])
        = .error (.fieldValidationErr "xs" "W" w)) := by
  have hrun : fieldSetE [] 1 "W" fdListV [] (.list [.int 1])
      = .ok [("xs", .list [.int 1])] := by
    simp [fieldSetE, fdListV, unpackList, isInstanceOf, insertReplace]
  refine ⟨rfl, fun w => rfl, hrun, ?_⟩
  intro w hcontra
  rw [hrun] at hcontra
  cases hcontra

/-- Claim C7 (amended): for every non-list field with a configured
validator, once the write contract has stored a value `w` (as witnessed by
the same assignment running with no validator), the validator is invoked
on `w`; its return value replaces the stored value, and if it raises, the
assignment raises `FieldValidationError` naming the field, the owner and
the offending stored value. -/
theorem c7_validator_amended (env : Env) (n : Nat) (owner : String)
    (fd : FieldDecl) (st : List (String × Val)) (v w : Val)
    (vf : Val → Option Val)
    (hk : fd.kind = .plain) (hvf : fd.validator = some vf)
    (hstore : fieldSetE env n owner { fd with validator := Option.none } st v
        = .ok (insertReplace st fd.name w)) :
    fieldSetE env n owner fd st v
      = match vf w with
        | some w' => .ok (insertReplace (insertReplace st fd.name w) fd.name w')
        | Option.none => .error (.fieldValidationErr fd.name owner w) := by
  have hinj : ∀ w0 : Val, (Except.ok (insertReplace st fd.name w0) :
      Except PyErr (List (String × Val))) = .ok (insertReplace st fd.name w) →
        w0 = w := by
    intro w0 h
    have := congrArg (fun r => match r with
      | Except.ok l => assocGet l fd.name
      | Except.error _ => Option.none) h
    simpa [assocGet_insertReplace_self] using this
  have hk0 : ({ fd with validator := Option.none } : FieldDecl).kind
      = FieldKind.plain := hk
  rw [fieldSetE_plain_eq env n owner _ st v hk0] at hstore
  rw [fieldSetE_plain_eq env n owner fd st v hk]
  split at hstore
  · rename_i hfirst
    have hw : v = w := hinj v (by simpa [afterStore] using hstore)
    subst hw
    simp only [show (fd.type.isEmpty && fd.schemeNames.isEmpty) = true from hfirst,
      if_true, afterStore, hvf]
  · split at hstore
    · rename_i hfirst hinst
      have hw : v = w := hinj v (by simpa [afterStore] using hstore)
      subst hw
      simp only [show (fd.type.isEmpty && fd.schemeNames.isEmpty) = false from
        Bool.eq_false_iff.mpr hfirst, Bool.false_eq_true, if_false,
        show isInstanceOf env v fd.type = true from hinst, if_true,
        afterStore, hvf]
    · split at hstore
      · rename_i hfirst hinst hms
        simp only [show (fd.type.isEmpty && fd.schemeNames.isEmpty) = false from
          Bool.eq_false_iff.mpr hfirst, Bool.false_eq_true, if_false,
          show isInstanceOf env v fd.type = false from
            Bool.eq_false_iff.mpr hinst,
          show (isMappingVal v && isStruct fd) = true from hms, if_true]
        rcases hgs : getStruct env fd (keysOfVal env v) with e | c
        · rw [show getStruct env ({ fd with validator := Option.none })
              (keysOfVal env v) = .error e from hgs] at hstore
          cases hstore
        · rw [show getStruct env ({ fd with validator := Option.none })
              (keysOfVal env v) = .ok c from hgs] at hstore
          have hstore2 : (match fromDict env n c v with
              | Except.error e => (Except.error e : Except PyErr (List (String × Val)))
              | Except.ok w0 =>
                  afterStore owner ({ fd with validator := Option.none }) st w0)
              = .ok (insertReplace st fd.name w) := hstore
          rcases hfd : fromDict env n c v with e | w0
          · rw [hfd] at hstore2; cases hstore2
          · rw [hfd] at hstore2
            have hw : w0 = w := hinj w0 (by simpa [afterStore] using hstore2)
            subst hw
            show (match fromDict env n c v with
              | Except.error e => (Except.error e : Except PyErr (List (String × Val)))
              | Except.ok w1 => afterStore owner fd st w1)
              = _
            rw [hfd]
            simp only [afterStore, hvf]
      · cases hstore

def normalizeTo7 : Val → Option Val := fun _ => some (.int 7)

def fdIntV : FieldDecl := ⟨"w", Option.none, [.intTy], [], some normalizeTo7, .plain⟩

theorem c7_validator_amended_witness :
    fdIntV.kind = .plain ∧ fdIntV.validator = some normalizeTo7 ∧
      fieldSetE [] 1 "Own" { fdIntV with validator := Option.none } [] (.int 5)
        = .ok (insertReplace [] "w" (.int 5)) ∧
      fieldSetE [] 1 "Own" fdIntV [] (.int 5)
        = .ok (insertReplace (insertReplace [] "w" (.int 5)) "w" (.int 7)) := by
  have hstore : fieldSetE [] 1 "Own" { fdIntV with validator := Option.none } []
      (.int 5) = .ok (insertReplace [] "w" (.int 5)) := by
    simp [fieldSetE, fdIntV, isInstanceOf, afterStore]
  refine ⟨rfl, rfl, hstore, ?_⟩
  have h := c7_validator_amended [] 1 "Own" fdIntV [] (.int 5) (.int 5)
    normalizeTo7 rfl rfl hstore
  simpa [normalizeTo7] using h

/-! ## Claim C10 — equality is containment -/

/-- Claim C10: `Scheme.__eq__` compares by containment, not key-set
equality — a scheme instance equals any `Mapping` that contains every one
of the scheme's iteration keys with an equal value, no matter what other
keys that mapping holds. -/
theorem c10_eq_containment (env : Env) (t : String)
    (slots : List (String × Val)) (m : Val)
    (hm : isMappingVal m = true)
    (hk : ∀ k ∈ iterKeysInst env t, mapContains env m k = true ∧
        getItemD env m k = getItemD env (Val.inst t slots) k) :
    pyEq env (Val.inst t slots) m = true := by
  simp only [pyEq, hm, Bool.true_and]
  exact instKeysEq_of_pointwise env t slots m _ hk

/-- Scheme `T` with aliased field `x` (alias `ax`) and plain field `y`. -/
def schemeT : SchemeDef :=
  ⟨"T", [⟨"x", some "ax", [], [], Option.none, .plain⟩,
         ⟨"y", Option.none, [], [], Option.none, .plain⟩], false, Option.none⟩

def envT : Env := [schemeT]

theorem c10_eq_containment_witness :
    isMappingVal (.map [("ax", .int 1), ("y", .int 2), ("extra", .int 99)]) = true ∧
    (∀ k ∈ iterKeysInst envT "T",
        mapContains envT (.map [("ax", .int 1), ("y", .int 2), ("extra", .int 99)]) k = true ∧
        getItemD envT (.map [("ax", .int 1), ("y", .int 2), ("extra", .int 99)]) k
          = getItemD envT (Val.inst "T" [("x", .int 1), ("y", .int 2)]) k) ∧
    pyEq envT (Val.inst "T" [("x", .int 1), ("y", .int 2)])
      (.map [("ax", .int 1), ("y", .int 2), ("extra", .int 99)]) = true := by
  have hks : iterKeysInst envT "T" = ["ax", "y"] := by
    simp [iterKeysInst, envT, schemeT, lookupScheme, aliasKeys, aliasPairs,
      fieldNames, insertReplace, List.dedup]
  have hk : ∀ k ∈ iterKeysInst envT "T",
      mapContains envT (.map [("ax", .int 1), ("y", .int 2), ("extra", .int 99)]) k = true ∧
      getItemD envT (.map [("ax", .int 1), ("y", .int 2), ("extra", .int 99)]) k
        = getItemD envT (Val.inst "T" [("x", .int 1), ("y", .int 2)]) k := by
    rw [hks]
    intro k hkm
    rcases List.mem_cons.mp hkm with rfl | hkm
    · exact ⟨rfl, by simp [getItemD, envT, schemeT, lookupScheme, aliasPairs,
        insertReplace, assocGet]⟩
    · rcases List.mem_cons.mp hkm with rfl | hkm
      · exact ⟨rfl, by simp [getItemD, envT, schemeT, lookupScheme, aliasPairs,
          insertReplace, assocGet]⟩
      · simp at hkm
  exact ⟨rfl, hk, c10_eq_containment envT "T" [("x", .int 1), ("y", .int 2)]
    (.map [("ax", .int 1), ("y", .int 2), ("extra", .int 99)]) rfl hk⟩

/-! ## Claim C8 — list-valued fields -/

/-- An element that satisfies none of the three elementwise rules of
`ListField.unpack_list`: not of a declared type, not a structural
`Mapping`, not a nested list. -/
def failsThreeWay (env : Env) (fd : FieldDecl) (v : Val) : Prop :=
  isInstanceOf env v fd.type = false ∧
  ¬ (isMappingVal v = true ∧ isStruct fd = true) ∧
  ∀ l, ¬ v = Val.list l

/-- `unpack_list` processes elements independently, left to right. -/
theorem unpackList_append (env : Env) (n : Nat) (owner : String)
    (fd : FieldDecl) :
    ∀ l1 l2 : List Val,
      unpackList env n owner fd (l1 ++ l2)
        = match unpackList env n owner fd l1 with
          | .error e => .error e
          | .ok out1 =>
              match unpackList env n owner fd l2 with
              | .error e => .error e
              | .ok out2 => .ok (out1 ++ out2) := by
  intro l1
  induction l1 with
  | nil =>
      intro l2
      rw [unpackList_nil_eq]
      simp only [List.nil_append]
      rcases unpackList env n owner fd l2 with e | out2 <;> simp
  | cons v rest ih =>
      intro l2
      rw [List.cons_append, unpackList_cons_eq, unpackList_cons_eq]
      by_cases h1 : isInstanceOf env v fd.type = true
      · rw [if_pos h1, if_pos h1, ih]
        rcases unpackList env n owner fd rest with e | out1
        · simp
        · rcases unpackList env n owner fd l2 with e | out2 <;> simp
      · rw [if_neg h1, if_neg h1]
        by_cases h2 : (isMappingVal v && isStruct fd) = true
        · rw [if_pos h2, if_pos h2]
          rcases getStruct env fd (keysOfVal env v) with e | c
          · simp
          · simp only []
            rcases fromDict env n c v with e | w
            · simp
            · simp only []
              rw [ih]
              rcases unpackList env n owner fd rest with e | out1
              · simp
              · rcases unpackList env n owner fd l2 with e | out2 <;> simp
        · rw [if_neg h2, if_neg h2]
          cases v with
          | list l =>
              rcases hil : unpackList env n owner fd l with e | inner
              · simp [hil]
              · simp only [hil]
                rw [ih]
                rcases hr : unpackList env n owner fd rest with e | out1
                · simp [hr]
                · rcases hl : unpackList env n owner fd l2 with e2 | out2 <;>
                    simp [hr, hl]
          | none => rfl
          | int i => rfl
          | str s => rfl
          | map e => rfl
          | inst t sl => rfl

/-- Claim C8 (amended): assigning `None` to a list field stores `None`
unchanged; a nested list element (not itself of a declared type) is
recursively unpacked preserving shape, to arbitrary depth; and an element
failing all three rules fails the whole assignment with `FieldTypeError`
provided every element before it coerces successfully (an earlier
element's structural resolution can fail first with a different error). -/
theorem c8_list_field_amended (env : Env) (n : Nat) (owner : String)
    (fd : FieldDecl) (st : List (String × Val)) (hk : fd.kind = FieldKind.list) :
    (fieldSetE env n owner fd st .none = .ok (insertReplace st fd.name .none)) ∧
    (∀ (l' : List Val) (rest : List Val) (inner out : List Val),
      isInstanceOf env (.list l') fd.type = false →
      unpackList env n owner fd l' = .ok inner →
      unpackList env n owner fd rest = .ok out →
        unpackList env n owner fd (.list l' :: rest) = .ok (.list inner :: out)) ∧
    (∀ (l1 l2 : List Val) (v : Val) (out1 : List Val),
      unpackList env n owner fd l1 = .ok out1 →
      failsThreeWay env fd v →
        unpackList env n owner fd (l1 ++ v :: l2)
            = .error (.fieldTypeErr fd.name owner v) ∧
        fieldSetE env n owner fd st (.list (l1 ++ v :: l2))
            = .error (.fieldTypeErr fd.name owner v)) := by
  refine ⟨?_, ?_, ?_⟩
  · rw [fieldSetE_list_eq env n owner fd st .none hk]
  · intro l' rest inner out hinst hinner hrest
    rw [unpackList_cons_eq, if_neg (by simp [hinst]),
      if_neg (by simp [isMappingVal])]
    simp [hinner, hrest]
  · intro l1 l2 v out1 h1 hfail
    obtain ⟨hinst, hms, hnl⟩ := hfail
    have hmsf : (isMappingVal v && isStruct fd) = false := by
      rcases not_and_or.mp hms with h | h
      · simp [Bool.eq_false_iff.mpr h]
      · simp [Bool.eq_false_iff.mpr h]
    have hvcons : unpackList env n owner fd (v :: l2)
        = .error (.fieldTypeErr fd.name owner v) := by
      rw [unpackList_cons_eq, if_neg (by simp [hinst]), if_neg (by simp [hmsf])]
      cases v with
      | list l => exact absurd rfl (hnl l)
      | none => rfl
      | int i => rfl
      | str s => rfl
      | map e => rfl
      | inst t sl => rfl
    have hwhole : unpackList env n owner fd (l1 ++ v :: l2)
        = .error (.fieldTypeErr fd.name owner v) := by
      rw [unpackList_append, h1, hvcons]
    refine ⟨hwhole, ?_⟩
    rw [fieldSetE_list_eq env n owner fd st _ hk]
    simp [hwhole]

def fdListInt : FieldDecl := ⟨"xs", Option.none, [.intTy], [], Option.none, .list⟩

theorem c8_list_field_amended_witness :
    fdListInt.kind = FieldKind.list ∧
    unpackList [] 1 "W" fdListInt [.int 1] = .ok [.int 1] ∧
    failsThreeWay [] fdListInt (.str "bad") ∧
    fieldSetE [] 1 "W" fdListInt [] (.list [.int 1, .str "bad"])
        = .error (.fieldTypeErr "xs" "W" (.str "bad")) := by
  have hone : unpackList [] 1 "W" fdListInt [.int 1] = .ok [.int 1] := by
    rw [unpackList_cons_eq, if_pos (by decide), unpackList_nil_eq]
  have hfail : failsThreeWay [] fdListInt (.str "bad") := by
    refine ⟨by decide, ?_, ?_⟩
    · intro h
      simp [isMappingVal] at h
    · intro l h
      cases h
  refine ⟨rfl, hone, hfail, ?_⟩
  have h := ((c8_list_field_amended [] 1 "W" fdListInt [] rfl).2.2
    [.int 1] [] (.str "bad") [.int 1] hone hfail).2
  simpa using h

/-- A list field referencing the never-registered scheme name `Ghost`:
`xs = ListField('Ghost')`. -/
def fdGhost : FieldDecl := ⟨"xs", Option.none, [], ["Ghost"], Option.none, .list⟩

/-- Claim C8 is false as stated: the element `5` fails all three
elementwise rules, yet the whole assignment raises `UnknownSchemeName`
(from the earlier mapping element's structural resolution), not
`FieldTypeError`. -/
theorem c8_list_field_counterexample :
    failsThreeWay [] fdGhost (.int 5) ∧
    fieldSetE [] 3 "W" fdGhost [] (.list [.map [("k", .int 1)], .int 5])
        = .error (.unknownSchemeName "Ghost") ∧
    (∀ f o w, ¬ fieldSetE [] 3 "W" fdGhost [] (.list [.map [("k", .int 1)], .int 5])
        = .error (.fieldTypeErr f o w)) := by
  have hrun : fieldSetE [] 3 "W" fdGhost [] (.list [.map [("k", .int 1)], .int 5])
      = .error (.unknownSchemeName "Ghost") := by
    rw [fieldSetE_list_eq [] 3 "W" fdGhost [] _ rfl]
    simp only []
    rw [unpackList_cons_eq, if_neg (by decide), if_pos (by decide)]
    simp [getStruct, resolveTys, resolveNames, lookupScheme, fdGhost, keysOfVal]
  refine ⟨⟨by decide, ?_, ?_⟩, hrun, ?_⟩
  · intro h
    simp [isMappingVal] at h
  · intro l h
    cases h
  · intro f o w hcontra
    rw [hrun] at hcontra
    cases hcontra

/-! ## Claim C9 — `as_dict` -/

theorem assocGet_isSome_of_mem {α : Type} {l : List (String × α)} {k : String}
    (h : k ∈ l.map Prod.fst) : ∃ v, assocGet l k = some v := by
  induction l with
  | nil => simp at h
  | cons hd tl ih =>
      obtain ⟨k0, v0⟩ := hd
      rw [List.map_cons] at h
      rcases List.mem_cons.mp h with rfl | h'
      · exact ⟨v0, by simp [assocGet]⟩
      · by_cases he : k0 = k
        · subst he
          exact ⟨v0, by simp [assocGet]⟩
        · obtain ⟨v, hv⟩ := ih h'
          exact ⟨v, by simp [assocGet, he, hv]⟩

theorem assocGet_none_iff_not_mem {α : Type} {l : List (String × α)}
    {k : String} : assocGet l k = Option.none ↔ ¬ k ∈ l.map Prod.fst := by
  constructor
  · intro h hmem
    obtain ⟨v, hv⟩ := assocGet_isSome_of_mem hmem
    rw [h] at hv
    cases hv
  · exact assocGet_eq_none_of_not_mem

theorem foldl_swap_insertReplace (ps : List (String × String)) :
    ∀ acc : List (String × String),
      ((acc.map Prod.fst) ++ ps.map Prod.snd).Nodup →
      ps.foldl (fun acc p => insertReplace acc p.2 p.1) acc
        = acc ++ ps.map (fun p => (p.2, p.1)) := by
  induction ps with
  | nil => intro acc _; simp
  | cons p ps ih =>
      intro acc hnd
      obtain ⟨a, f⟩ := p
      have hmem : ¬ f ∈ acc.map Prod.fst := by
        intro hx
        exact (List.disjoint_of_nodup_append hnd) hx (by simp)
      simp only [List.foldl_cons, insertReplace_of_not_mem acc _ hmem]
      rw [ih (acc ++ [(f, a)]) (by simpa using hnd)]
      simp

/-- On a clean scheme, the `as_dict` inverse alias table is the
field-name → alias pairs in declaration order. -/
theorem invAliases_eq_filterMap {cls : SchemeDef} (hclean : cleanScheme cls) :
    invAliases cls
      = cls.fields.filterMap (fun fd => fd.al.map (fun a => (fd.name, a))) := by
  have hsnd : (aliasPairs cls).map Prod.snd
      = (cls.fields.filter (fun fd => fd.al.isSome)).map (·.name) := by
    rw [aliasPairs_eq_filterMap hclean]
    induction cls.fields with
    | nil => simp
    | cons fd fs ih =>
        cases hal : fd.al with
        | none => simpa [List.filterMap_cons, List.filter_cons, hal] using ih
        | some a => simpa [List.filterMap_cons, List.filter_cons, hal] using ih
  have hnd : (aliasPairs cls).map Prod.snd |>.Nodup := by
    rw [hsnd]
    exact List.Nodup.sublist ((List.filter_sublist _).map _) hclean.1
  have := foldl_swap_insertReplace (aliasPairs cls) [] (by simpa using hnd)
  rw [invAliases, this, List.nil_append, aliasPairs_eq_filterMap hclean]
  induction cls.fields with
  | nil => simp
  | cons fd fs ih =>
      cases hal : fd.al with
      | none => simpa [List.filterMap_cons, hal] using ih
      | some a => simpa [List.filterMap_cons, hal] using ih

theorem assoc_filterMap_name (fs : List FieldDecl)
    (hnd : (fs.map (·.name)).Nodup) :
    ∀ fd ∈ fs,
      assocGet (fs.filterMap (fun g => g.al.map (fun a => (g.name, a)))) fd.name
        = fd.al := by
  induction fs with
  | nil => intro fd h; simp at h
  | cons g fs ih =>
      intro fd hfd
      rw [List.map_cons] at hnd
      have hnd' := List.nodup_cons.mp hnd
      have hkeys : ∀ p ∈ fs.filterMap (fun g => g.al.map (fun a => (g.name, a))),
          p.1 ∈ fs.map (·.name) := by
        intro p hp
        obtain ⟨q, hq, hqe⟩ := List.mem_filterMap.mp hp
        cases hal : q.al with
        | none => rw [hal] at hqe; cases hqe
        | some a =>
            rw [hal] at hqe
            cases hqe
            exact List.mem_map_of_mem _ hq
      rcases List.mem_cons.mp hfd with rfl | hfd'
      · cases hal : fd.al with
        | some a => simp [List.filterMap_cons, hal, assocGet]
        | none =>
            simp only [List.filterMap_cons, hal]
            apply assocGet_eq_none_of_not_mem
            intro hx
            obtain ⟨p, hp, hpe⟩ := List.mem_map.mp hx
            exact hnd'.1 (hpe ▸ hkeys p hp)
      · have hgname : ¬ g.name = fd.name := by
          intro he
          exact hnd'.1 (he ▸ List.mem_map_of_mem _ hfd')
        have ihr := ih hnd'.2 fd hfd'
        cases hal : g.al with
        | none => simpa [List.filterMap_cons, hal] using ihr
        | some a => simpa [List.filterMap_cons, hal, assocGet, hgname] using ihr

/-- On a clean scheme the inverse alias table maps each declared field's
name to its own alias (or nothing). -/
theorem invAliases_assoc {cls : SchemeDef} (hclean : cleanScheme cls) :
    ∀ fd ∈ cls.fields, assocGet (invAliases cls) fd.name = fd.al := by
  rw [invAliases_eq_filterMap hclean]
  exact assoc_filterMap_name cls.fields hclean.1

/-- The entries `as_dict` emits for a given field-name list, in order
(assuming no key collisions, so dict insertion is plain append). -/
def exportEmit (env : Env) (ln : Bool) (s : SchemeDef)
    (slots : List (String × Val)) : List String → List (String × Val)
  | [] => []
  | f :: fs =>
      match assocGet slots f with
      | some v =>
          if notNoneVal v || ln then
            (extOf s f, exportVal env ln v) :: exportEmit env ln s slots fs
          else exportEmit env ln s slots fs
      | Option.none =>
          if ln then (extOf s f, Val.none) :: exportEmit env ln s slots fs
          else exportEmit env ln s slots fs

theorem exportEmit_keys_subset (env : Env) (ln : Bool) (s : SchemeDef)
    (slots : List (String × Val)) :
    ∀ fs, ∀ k ∈ (exportEmit env ln s slots fs).map Prod.fst,
      k ∈ fs.map (fun f => extOf s f) := by
  intro fs
  induction fs with
  | nil => intro k hk; simp [exportEmit] at hk
  | cons f fs ih =>
      intro k hk
      rw [List.map_cons]
      cases hv : assocGet slots f with
      | some v =>
          simp only [exportEmit, hv] at hk
          split at hk
          · rw [List.map_cons] at hk
            rcases List.mem_cons.mp hk with rfl | hk'
            · exact List.mem_cons_self _ _
            · exact List.mem_cons_of_mem _ (ih k hk')
          · exact List.mem_cons_of_mem _ (ih k hk)
      | none =>
          simp only [exportEmit, hv] at hk
          split at hk
          · rw [List.map_cons] at hk
            rcases List.mem_cons.mp hk with rfl | hk'
            · exact List.mem_cons_self _ _
            · exact List.mem_cons_of_mem _ (ih k hk')
          · exact List.mem_cons_of_mem _ (ih k hk)

/-- `as_dict`'s field loop is plain list append when the emitted external
keys collide neither with each other nor with the accumulator. -/
theorem exportFields_eq_emit (env : Env) (ln : Bool) (s : SchemeDef)
    (slots : List (String × Val)) :
    ∀ (fs : List String) (acc : List (String × Val)),
      ((acc.map Prod.fst) ++ fs.map (fun f => extOf s f)).Nodup →
      exportFields env ln s slots acc fs = acc ++ exportEmit env ln s slots fs := by
  intro fs
  induction fs with
  | nil => intro acc _; simp [exportFields, exportEmit]
  | cons f fs ih =>
      intro acc hnd
      have hmem : ¬ extOf s f ∈ acc.map Prod.fst := by
        intro hx
        exact (List.disjoint_of_nodup_append hnd) hx (by simp)
      have hnd' : ((acc.map Prod.fst ++ [extOf s f])
          ++ fs.map (fun f => extOf s f)).Nodup := by
        simpa using hnd
      have hnds : ((acc.map Prod.fst) ++ fs.map (fun f => extOf s f)).Nodup := by
        refine List.Nodup.sublist ?_ hnd
        exact List.Sublist.append (List.Sublist.refl _) (List.sublist_cons_self _ _)
      cases hv : assocGet slots f with
      | some v =>
          rw [exportFields]
          simp only [hv, Option.isSome_some, Option.get_some]
          by_cases hnn : (notNoneVal v || ln) = true
          · rw [if_pos hnn, insertReplace_of_not_mem acc _ (by simpa [extOf] using hmem)]
            rw [ih (acc ++ [(extOf s f, exportVal env ln v)]) (by simpa [extOf] using hnd')]
            simp [exportEmit, hv, hnn, extOf]
          · rw [if_neg hnn, ih acc hnds]
            simp [exportEmit, hv, hnn]
      | none =>
          rw [exportFields]
          simp only [hv, Option.isSome_none]
          by_cases hln : ln = true
          · rw [if_pos hln, insertReplace_of_not_mem acc _ (by simpa [extOf] using hmem)]
            rw [ih (acc ++ [(extOf s f, Val.none)]) (by simpa [extOf] using hnd')]
            simp [exportEmit, hv, hln, extOf]
          · rw [if_neg hln, ih acc hnds]
            simp [exportEmit, hv, hln]

/-- Lookup in the emitted entries, per field. -/
theorem exportEmit_assoc (env : Env) (ln : Bool) (s : SchemeDef)
    (slots : List (String × Val)) :
    ∀ fs : List String, (fs.map (fun f => extOf s f)).Nodup →
      ∀ f ∈ fs,
        assocGet (exportEmit env ln s slots fs) (extOf s f)
          = match assocGet slots f with
            | some v =>
                if notNoneVal v || ln then some (exportVal env ln v) else Option.none
            | Option.none => if ln then some Val.none else Option.none := by
  intro fs
  induction fs with
  | nil => intro _ f h; simp at h
  | cons g fs ih =>
      intro hnd f hf
      have hnd2 : ¬ extOf s g ∈ fs.map (fun f => extOf s f) ∧
          (fs.map (fun f => extOf s f)).Nodup := by
        rw [List.map_cons] at hnd
        exact List.nodup_cons.mp hnd
      rcases List.mem_cons.mp hf with rfl | hf'
      · cases hv : assocGet slots f with
        | some v =>
            by_cases hnn : (notNoneVal v || ln) = true
            · simp [exportEmit, hv, hnn, assocGet]
            · simp only [exportEmit, hv, if_neg hnn]
              rw [assocGet_eq_none_of_not_mem
                (fun hx => hnd2.1 (exportEmit_keys_subset env ln s slots fs _ hx))]
        | none =>
            by_cases hln : ln = true
            · simp [exportEmit, hv, hln, assocGet]
            · simp only [exportEmit, hv, if_neg hln]
              rw [assocGet_eq_none_of_not_mem
                (fun hx => hnd2.1 (exportEmit_keys_subset env ln s slots fs _ hx))]
      · have hne : ¬ extOf s g = extOf s f := by
          intro he
          exact hnd2.1 (he ▸ List.mem_map_of_mem _ hf')
        have ihr := ih hnd2.2 f hf'
        cases hgv : assocGet slots g with
        | some v =>
            simp only [exportEmit, hgv]
            by_cases hcnd : (notNoneVal v || ln) = true
            · rw [if_pos hcnd]
              simpa [assocGet, hne] using ihr
            · rw [if_neg hcnd]
              exact ihr
        | none =>
            simp only [exportEmit, hgv]
            by_cases hcnd : ln = true
            · rw [if_pos hcnd]
              simpa [assocGet, hne] using ihr
            · rw [if_neg hcnd]
              exact ihr

theorem assoc_key_unique {α : Type} {l : List (String × α)}
    (h : (l.map Prod.fst).Nodup) {k : String} {v1 v2 : α}
    (h1 : (k, v1) ∈ l) (h2 : (k, v2) ∈ l) : v1 = v2 := by
  induction l with
  | nil => simp at h1
  | cons hd tl ih =>
      obtain ⟨k0, v0⟩ := hd
      rw [List.map_cons] at h
      have hnd := List.nodup_cons.mp h
      rcases List.mem_cons.mp h1 with he1 | h1'
      · rcases List.mem_cons.mp h2 with he2 | h2'
        · cases he1; cases he2; rfl
        · cases he1
          exact absurd (List.mem_map_of_mem Prod.fst h2') hnd.1
      · rcases List.mem_cons.mp h2 with he2 | h2'
        · cases he2
          exact absurd (List.mem_map_of_mem Prod.fst h1') hnd.1
        · exact ih hnd.2 h1' h2'

/-- On a clean scheme with aliases disjoint from field names, the emitted
external keys of distinct fields are distinct. -/
theorem extOf_nodup {cls : SchemeDef} (hclean : cleanScheme cls)
    (hdisj : ∀ a ∈ aliasKeys cls, ¬ a ∈ fieldNames cls) :
    ((fieldNames cls).map (fun f => extOf cls f)).Nodup := by
  have hext : ∀ fd ∈ cls.fields, extOf cls fd.name = fd.al.getD fd.name := by
    intro fd hfd
    simp [extOf, invAliases_assoc hclean fd hfd]
  have halmem : ∀ fd ∈ cls.fields, ∀ a, fd.al = some a →
      (a, fd.name) ∈ aliasPairs cls := by
    intro fd hfd a ha
    rw [aliasPairs_eq_filterMap hclean]
    exact List.mem_filterMap.mpr ⟨fd, hfd, by simp [ha]⟩
  refine List.Nodup.map_on ?_ (List.nodup_dedup _)
  intro f1 hf1 f2 hf2 he
  obtain ⟨fd1, hfd1, rfl⟩ := List.mem_map.mp (mem_fieldNames.mp hf1)
  obtain ⟨fd2, hfd2, rfl⟩ := List.mem_map.mp (mem_fieldNames.mp hf2)
  rw [hext fd1 hfd1, hext fd2 hfd2] at he
  cases ha1 : fd1.al with
  | some a1 =>
      cases ha2 : fd2.al with
      | some a2 =>
          rw [ha1, ha2] at he
          simp only [Option.getD_some] at he
          subst he
          exact assoc_key_unique (aliasKeys_nodup cls)
            (halmem fd1 hfd1 a1 ha1) (halmem fd2 hfd2 a1 ha2)
      | none =>
          rw [ha1, ha2] at he
          simp only [Option.getD_some, Option.getD_none] at he
          have hmem : a1 ∈ aliasKeys cls :=
            List.mem_map_of_mem Prod.fst (halmem fd1 hfd1 a1 ha1)
          have : fd2.name ∈ fieldNames cls :=
            mem_fieldNames.mpr (List.mem_map_of_mem _ hfd2)
          exact absurd (he ▸ this) (hdisj a1 hmem)
  | none =>
      cases ha2 : fd2.al with
      | some a2 =>
          rw [ha1, ha2] at he
          simp only [Option.getD_some, Option.getD_none] at he
          have hmem : a2 ∈ aliasKeys cls :=
            List.mem_map_of_mem Prod.fst (halmem fd2 hfd2 a2 ha2)
          have : fd1.name ∈ fieldNames cls :=
            mem_fieldNames.mpr (List.mem_map_of_mem _ hfd1)
          exact absurd (he ▸ this) (hdisj a2 hmem)
      | none =>
          rw [ha1, ha2] at he
          simpa using he

/-- Claim C9 (amended): `as_dict(leave_none)` produces a generic mapping;
for every declared field it reads the slot value, omits the field
entirely when the value is absent (`None`) and `leave_none` is false,
emits a present value under the field's alias name if one exists else its
canonical name, and exports the value through `exportVal` — which
converts a field value that is itself a Scheme instance to its `as_dict`
and leaves every other value (including Scheme instances nested inside
lists) unchanged. -/
theorem c9_as_dict_amended (env : Env) (ln : Bool) (t : String)
    (slots : List (String × Val)) (cls : SchemeDef)
    (hcls : lookupScheme env t = some cls)
    (hclean : cleanScheme cls)
    (hdisj : ∀ a ∈ aliasKeys cls, ¬ a ∈ fieldNames cls) :
    ∃ es, exportVal env ln (.inst t slots) = .map es ∧
      ∀ fd ∈ cls.fields,
        ((assocGet slots fd.name).getD .none = .none → ln = false →
            assocGet es (fd.al.getD fd.name) = Option.none) ∧
        (∀ v, assocGet slots fd.name = some v → (notNoneVal v || ln) = true →
            assocGet es (fd.al.getD fd.name) = some (exportVal env ln v)) ∧
        (assocGet slots fd.name = Option.none → ln = true →
            assocGet es (fd.al.getD fd.name) = some Val.none) := by
  have hnd := extOf_nodup hclean hdisj
  have hexp : exportVal env ln (.inst t slots)
      = .map (exportEmit env ln cls slots (fieldNames cls)) := by
    rw [exportVal, hcls]
    simp only []
    rw [exportFields_eq_emit env ln cls slots (fieldNames cls) [] (by simpa using hnd)]
    simp
  refine ⟨exportEmit env ln cls slots (fieldNames cls), hexp, ?_⟩
  intro fd hfd
  have hext : extOf cls fd.name = fd.al.getD fd.name := by
    simp [extOf, invAliases_assoc hclean fd hfd]
  have hmemf : fd.name ∈ fieldNames cls :=
    mem_fieldNames.mpr (List.mem_map_of_mem _ hfd)
  have hlook := exportEmit_assoc env ln cls slots (fieldNames cls) hnd fd.name hmemf
  rw [hext] at hlook
  refine ⟨?_, ?_, ?_⟩
  · intro hvn hln
    cases hv : assocGet slots fd.name with
    | some v =>
        rw [hv] at hvn hlook
        simp only [Option.getD_some] at hvn
        rw [hlook]
        simp [hvn, notNoneVal, hln]
    | none =>
        rw [hv] at hlook
        rw [hlook]
        simp [hln]
  · intro v hv hnn
    rw [hv] at hlook
    rw [hlook]
    simp [hnn]
  · intro hv hln
    rw [hv] at hlook
    rw [hlook]
    simp [hln]

theorem c9_as_dict_amended_witness :
    lookupScheme envT "T" = some schemeT ∧ cleanScheme schemeT ∧
    (∀ a ∈ aliasKeys schemeT, ¬ a ∈ fieldNames schemeT) ∧
    (∃ es, exportVal envT false (.inst "T" [("x", .int 1), ("y", .none)]) = .map es ∧
      ∀ fd ∈ schemeT.fields,
        ((assocGet [("x", Val.int 1), ("y", Val.none)] fd.name).getD .none = .none →
            false = false →
            assocGet es (fd.al.getD fd.name) = Option.none) ∧
        (∀ v, assocGet [("x", Val.int 1), ("y", Val.none)] fd.name = some v →
            (notNoneVal v || false) = true →
            assocGet es (fd.al.getD fd.name) = some (exportVal envT false v)) ∧
        (assocGet [("x", Val.int 1), ("y", Val.none)] fd.name = Option.none →
            false = true →
            assocGet es (fd.al.getD fd.name) = some Val.none)) := by
  refine ⟨rfl, ?_, by decide, ?_⟩
  · refine ⟨by decide, by decide, ?_⟩
    intro fd hfd a ha
    rcases List.mem_cons.mp hfd with rfl | hfd'
    · cases ha; decide
    · rcases List.mem_cons.mp hfd' with rfl | hfd''
      · cases ha
      · simp at hfd''
  · refine c9_as_dict_amended envT false "T" [("x", .int 1), ("y", .none)]
      schemeT rfl ?_ (by decide)
    refine ⟨by decide, by decide, ?_⟩
    intro fd hfd a ha
    rcases List.mem_cons.mp hfd with rfl | hfd'
    · cases ha; decide
    · rcases List.mem_cons.mp hfd' with rfl | hfd''
      · cases ha
      · simp at hfd''

/-- `T` with one accept-anything field `z`, and `W` with a `ListField(T)`
field `f`. -/
def schemeTz : SchemeDef :=
  ⟨"T", [⟨"z", Option.none, [], [], Option.none, .plain⟩], false, Option.none⟩

def schemeWl : SchemeDef :=
  ⟨"W", [⟨"f", Option.none, [.schemeTy "T"], [], Option.none, .list⟩],
    false, Option.none⟩

def envC9 : Env := [schemeTz, schemeWl]

/-- Claim C9 is false as stated: `as_dict` on an instance of `W` whose
list field holds a `T` instance leaves that nested Scheme value inside
the list as an instance — it is not recursively exported to a generic
mapping, even though exporting the same `T` instance directly would
produce one. -/
theorem c9_as_dict_counterexample :
    exportVal envC9 false
        (.inst "W" [("f", .list [.inst "T" [("z", .int 1)]])])
      = .map [("f", .list [.inst "T" [("z", .int 1)]])] ∧
    exportVal envC9 false (.inst "T" [("z", .int 1)]) = .map [("z", .int 1)] ∧
    ¬ (Val.list [.inst "T" [("z", .int 1)]]
        = Val.list [exportVal envC9 false (.inst "T" [("z", .int 1)])]) := by
  have ht : exportVal envC9 false (.inst "T" [("z", .int 1)])
      = .map [("z", .int 1)] := by
    rw [exportVal]
    simp [envC9, schemeTz, schemeWl, lookupScheme, fieldNames, exportFields,
      assocGet, notNoneVal, extOf, invAliases, aliasPairs, insertReplace,
      exportVal]
  refine ⟨?_, ht, ?_⟩
  · rw [exportVal]
    simp [envC9, schemeTz, schemeWl, lookupScheme, fieldNames, exportFields,
      assocGet, notNoneVal, extOf, invAliases, aliasPairs, insertReplace,
      exportVal]
  · rw [ht]
    simp

/-! ## The field-binding characterization of `from_dict` (claims C4, C5) -/

/-- The raw value `from_dict` binds a field from: the value under the
alias key when the field has an alias present in the mapping, else
`d.get(name)`. -/
def rawOf (env : Env) (d : Val) (fd : FieldDecl) : Val :=
  match fd.al with
  | some a => if mapContains env d a then mapGet env d a else mapGet env d fd.name
  | Option.none => mapGet env d fd.name

/-- A field whose assignment stores the raw value unchanged: a scalar
field with no validator that either accepts anything or accepts the
value's runtime type. -/
def storesRaw (env : Env) (d : Val) (fd : FieldDecl) : Prop :=
  fd.kind = FieldKind.plain ∧ fd.validator = Option.none ∧
    ((fd.type = [] ∧ fd.schemeNames = []) ∨
      isInstanceOf env (rawOf env d fd) fd.type = true)

theorem fieldSetE_stores (env : Env) (n : Nat) (owner : String)
    (fd : FieldDecl) (st : List (String × Val)) (v : Val)
    (hk : fd.kind = FieldKind.plain) (hval : fd.validator = Option.none)
    (hacc : (fd.type = [] ∧ fd.schemeNames = []) ∨
      isInstanceOf env v fd.type = true) :
    fieldSetE env n owner fd st v = .ok (insertReplace st fd.name v) := by
  rw [fieldSetE_plain_eq env n owner fd st v hk]
  rcases hacc with ⟨h1, h2⟩ | hinst
  · rw [if_pos (by simp [h1, h2])]
    simp [afterStore, hval]
  · by_cases hfirst : (fd.type.isEmpty && fd.schemeNames.isEmpty) = true
    · rw [if_pos hfirst]
      simp [afterStore, hval]
    · rw [if_neg hfirst, if_pos hinst]
      simp [afterStore, hval]

theorem find?_name {cls : SchemeDef} (hnd : (cls.fields.map (·.name)).Nodup) :
    ∀ fd ∈ cls.fields, cls.fields.find? (fun g => g.name == fd.name) = some fd := by
  have : ∀ (fs : List FieldDecl), (fs.map (·.name)).Nodup →
      ∀ fd ∈ fs, fs.find? (fun g => g.name == fd.name) = some fd := by
    intro fs
    induction fs with
    | nil => intro _ fd h; simp at h
    | cons g fs ih =>
        intro hnd fd hfd
        rw [List.map_cons] at hnd
        have hnd' := List.nodup_cons.mp hnd
        rcases List.mem_cons.mp hfd with rfl | hfd'
        · simp [List.find?]
        · have hne : ¬ (g.name == fd.name) = true := by
            simp only [beq_iff_eq]
            intro he
            exact hnd'.1 (he ▸ List.mem_map_of_mem _ hfd')
          rw [List.find?]
          simp only [hne]
          exact ih hnd'.2 fd hfd'
  exact this cls.fields hnd

/-- `struct[field] = value` with a canonical field name on a clean scheme
reduces to the field's descriptor assignment. -/
theorem setItemE_field (env : Env) (n : Nat) (cls : SchemeDef)
    (st : List (String × Val)) (fd : FieldDecl) (v : Val)
    (hclean : cleanScheme cls)
    (hdisj : ∀ x ∈ aliasKeys cls, ¬ x ∈ fieldNames cls)
    (hfd : fd ∈ cls.fields)
    (hk : fd.kind = FieldKind.plain) (hval : fd.validator = Option.none)
    (hacc : (fd.type = [] ∧ fd.schemeNames = []) ∨
      isInstanceOf env v fd.type = true) :
    setItemE env n cls st fd.name v = .ok (insertReplace st fd.name v) := by
  have hmemf : fd.name ∈ fieldNames cls :=
    mem_fieldNames.mpr (List.mem_map_of_mem _ hfd)
  have hnoalias : assocGet (aliasPairs cls) fd.name = Option.none := by
    apply assocGet_eq_none_of_not_mem
    intro hx
    exact hdisj fd.name hx hmemf
  rw [setItemE]
  simp only [hnoalias, Option.getD_none]
  rw [if_pos (by simpa using hmemf), find?_name hclean.1 fd hfd]
  exact fieldSetE_stores env n cls.name fd st v hk hval hacc

/-- The alias loop binds exactly the alias-present fields from their
alias keys, leaving every other slot untouched. -/
theorem bindAliases_spec (env : Env) (n : Nat) (cls : SchemeDef) (d : Val)
    (hclean : cleanScheme cls)
    (hdisj : ∀ x ∈ aliasKeys cls, ¬ x ∈ fieldNames cls)
    (hstored : ∀ g ∈ cls.fields, storesRaw env d g) :
    ∀ (pairs : List (String × String)) (st : List (String × Val))
      (done : List String),
      (∀ p ∈ pairs, ∃ fd ∈ cls.fields, fd.name = p.2 ∧ fd.al = some p.1) →
      ((pairs.map Prod.snd).Nodup) →
      ∃ st' done', bindAliases env n cls d st done pairs = .ok (st', done') ∧
        (∀ k, (∀ p ∈ pairs, ¬ p.2 = k) → assocGet st' k = assocGet st k) ∧
        (∀ p ∈ pairs,
          (mapContains env d p.1 = true →
            assocGet st' p.2 = some (mapGet env d p.1)) ∧
          (mapContains env d p.1 = false →
            assocGet st' p.2 = assocGet st p.2)) ∧
        (∀ k, k ∈ done' ↔ (k ∈ done ∨
          ∃ p ∈ pairs, p.2 = k ∧ mapContains env d p.1 = true)) := by
  intro pairs
  induction pairs with
  | nil =>
      intro st done _ _
      exact ⟨st, done, by rw [bindAliases.eq_def], fun _ _ => rfl,
        fun p hp => by simp at hp, fun k => by simp⟩
  | cons p rest ih =>
      intro st done hp hnd
      obtain ⟨a, f⟩ := p
      obtain ⟨fd, hfdmem, hfname0, hfal0⟩ := hp (a, f) (by simp)
      have hfname : fd.name = f := hfname0
      have hfal : fd.al = some a := hfal0
      rw [List.map_cons] at hnd
      have hnd' := List.nodup_cons.mp hnd
      have hstored' := hstored fd hfdmem
      rw [bindAliases]
      by_cases hc : mapContains env d a = true
      · rw [if_pos hc]
        have hraw : rawOf env d fd = mapGet env d a := by
          simp [rawOf, hfal, hc]
        have hset : setItemE env n cls st f (mapGet env d a)
            = .ok (insertReplace st f (mapGet env d a)) := by
          rw [← hfname]
          exact setItemE_field env n cls st fd _ hclean hdisj hfdmem
            hstored'.1 hstored'.2.1 (hraw ▸ hstored'.2.2)
        rw [hset]
        obtain ⟨st', done', hrun, huntouched, hpairs, hdone⟩ :=
          ih (insertReplace st f (mapGet env d a)) (done ++ [f])
            (fun q hq => hp q (by simp [hq])) hnd'.2
        refine ⟨st', done', hrun, ?_, ?_, ?_⟩
        · intro k hk
          rw [huntouched k (fun q hq => hk q (by simp [hq]))]
          exact assocGet_insertReplace_ne st _ (fun he => hk (a, f) (by simp) he.symm)
        · intro q hq
          rcases List.mem_cons.mp hq with rfl | hq'
          · refine ⟨fun _ => ?_, fun hcf => absurd hcf (by simp [hc])⟩
            rw [huntouched f (fun r hr he => hnd'.1 (List.mem_map.mpr ⟨r, hr, he⟩))]
            exact assocGet_insertReplace_self st f _
          · refine ⟨fun hq2 => (hpairs q hq').1 hq2, fun hq2 => ?_⟩
            rw [(hpairs q hq').2 hq2]
            exact assocGet_insertReplace_ne st _
              (fun he => hnd'.1 (List.mem_map.mpr ⟨q, hq', he⟩))
        · intro k
          rw [hdone k]
          constructor
          · rintro (hk | ⟨q, hq, hqe, hqc⟩)
            · rcases List.mem_append.mp hk with hk | hk
              · exact Or.inl hk
              · refine Or.inr ⟨(a, f), by simp, ?_, hc⟩
                have hkf : k = f := by simpa using hk
                exact hkf.symm
            · exact Or.inr ⟨q, by simp [hq], hqe, hqc⟩
          · rintro (hk | ⟨q, hq, hqe, hqc⟩)
            · exact Or.inl (List.mem_append_left _ hk)
            · rcases List.mem_cons.mp hq with rfl | hq'
              · exact Or.inl (List.mem_append_right _ (List.mem_singleton.mpr hqe.symm))
              · exact Or.inr ⟨q, hq', hqe, hqc⟩
      · rw [if_neg hc]
        obtain ⟨st', done', hrun, huntouched, hpairs, hdone⟩ :=
          ih st done (fun q hq => hp q (by simp [hq])) hnd'.2
        refine ⟨st', done', hrun, ?_, ?_, ?_⟩
        · intro k hk
          exact huntouched k (fun q hq => hk q (by simp [hq]))
        · intro q hq
          rcases List.mem_cons.mp hq with rfl | hq'
          · refine ⟨fun hq2 => absurd hq2 hc, fun _ => ?_⟩
            exact huntouched f (fun r hr he => hnd'.1 (List.mem_map.mpr ⟨r, hr, he⟩))
          · exact hpairs q hq'
        · intro k
          rw [hdone k]
          constructor
          · rintro (hk | ⟨q, hq, hqe, hqc⟩)
            · exact Or.inl hk
            · exact Or.inr ⟨q, by simp [hq], hqe, hqc⟩
          · rintro (hk | ⟨q, hq, hqe, hqc⟩)
            · exact Or.inl hk
            · rcases List.mem_cons.mp hq with rfl | hq'
              · exact absurd hqc hc
              · exact Or.inr ⟨q, hq', hqe, hqc⟩

/-- The canonical-name loop binds the listed fields from `d.get(name)`,
leaving every other slot untouched. -/
theorem bindRest_spec (env : Env) (n : Nat) (cls : SchemeDef) (d : Val)
    (hclean : cleanScheme cls)
    (hdisj : ∀ x ∈ aliasKeys cls, ¬ x ∈ fieldNames cls) :
    ∀ (names : List String) (st : List (String × Val)),
      (∀ f ∈ names, ∃ fd ∈ cls.fields, fd.name = f ∧
        fd.kind = FieldKind.plain ∧ fd.validator = Option.none ∧
        ((fd.type = [] ∧ fd.schemeNames = []) ∨
          isInstanceOf env (mapGet env d f) fd.type = true)) →
      ∃ st', bindRest env n cls d st names = .ok st' ∧
        (∀ k, ¬ k ∈ names → assocGet st' k = assocGet st k) ∧
        (∀ f ∈ names, assocGet st' f = some (mapGet env d f)) := by
  intro names
  induction names with
  | nil =>
      intro st _
      exact ⟨st, by rw [bindRest.eq_def], fun _ _ => rfl, fun f hf => by simp at hf⟩
  | cons f rest ih =>
      intro st hf
      obtain ⟨fd, hfdmem, hfname, hk, hval, hacc⟩ := hf f (by simp)
      have hset : setItemE env n cls st f (mapGet env d f)
          = .ok (insertReplace st f (mapGet env d f)) := by
        rw [← hfname]
        exact setItemE_field env n cls st fd _ hclean hdisj hfdmem hk hval
          (hfname ▸ hacc)
      rw [bindRest, hset]
      obtain ⟨st', hrun, huntouched, hflds⟩ :=
        ih (insertReplace st f (mapGet env d f))
          (fun g hg => hf g (by simp [hg]))
      by_cases hfrest : f ∈ rest
      · refine ⟨st', hrun, ?_, ?_⟩
        · intro k hk
          rw [huntouched k (fun hx => hk (by simp [hx]))]
          exact assocGet_insertReplace_ne st _ (fun he => hk (by simp [he.symm]))
        · intro g hg
          rcases List.mem_cons.mp hg with rfl | hg'
          · exact hflds g hfrest
          · exact hflds g hg'
      · refine ⟨st', hrun, ?_, ?_⟩
        · intro k hk
          rw [huntouched k (fun hx => hk (by simp [hx]))]
          exact assocGet_insertReplace_ne st _ (fun he => hk (by simp [he.symm]))
        · intro g hg
          rcases List.mem_cons.mp hg with rfl | hg'
          · rw [huntouched g hfrest]
            exact assocGet_insertReplace_self st g _
          · exact hflds g hg'

theorem mem_aliasPairs {cls : SchemeDef} (h : cleanScheme cls)
    {p : String × String} :
    p ∈ aliasPairs cls ↔
      ∃ fd ∈ cls.fields, fd.al = some p.1 ∧ fd.name = p.2 := by
  rw [aliasPairs_eq_filterMap h, List.mem_filterMap]
  constructor
  · rintro ⟨fd, hfd, hfde⟩
    obtain ⟨a, ha, hae⟩ := Option.map_eq_some'.mp hfde
    exact ⟨fd, hfd, by rw [ha, ← hae], by rw [← hae]⟩
  · rintro ⟨fd, hfd, hal, hname⟩
    exact ⟨fd, hfd, by rw [hal, Option.map_some', hname]⟩

theorem mem_filterMap_al_snd {fs : List FieldDecl} {x : String}
    (h : x ∈ (fs.filterMap
      (fun fd => fd.al.map (fun a => (a, fd.name)))).map Prod.snd) :
    x ∈ fs.map (·.name) := by
  obtain ⟨p, hp, hpx⟩ := List.mem_map.mp h
  obtain ⟨fd, hfd, hfde⟩ := List.mem_filterMap.mp hp
  obtain ⟨a, _, hae⟩ := Option.map_eq_some'.mp hfde
  rw [← hpx, ← hae]
  exact List.mem_map_of_mem _ hfd

theorem aliasPairs_snd_nodup {cls : SchemeDef} (h : cleanScheme cls) :
    ((aliasPairs cls).map Prod.snd).Nodup := by
  rw [aliasPairs_eq_filterMap h]
  have : ∀ (fs : List FieldDecl), (fs.map (·.name)).Nodup →
      ((fs.filterMap
        (fun fd => fd.al.map (fun a => (a, fd.name)))).map Prod.snd).Nodup := by
    intro fs
    induction fs with
    | nil => simp
    | cons g fs ih =>
        intro hnd
        rw [List.map_cons] at hnd
        have hnd' := List.nodup_cons.mp hnd
        cases hal : g.al with
        | none => simpa [List.filterMap_cons, hal] using ih hnd'.2
        | some a =>
            simp only [List.filterMap_cons, hal, Option.map_some', List.map_cons]
            exact List.nodup_cons.mpr
              ⟨fun hmem => hnd'.1 (mem_filterMap_al_snd hmem), ih hnd'.2⟩
  exact this cls.fields h.1

theorem clean_disj {cls : SchemeDef} (h : cleanScheme cls) :
    ∀ x ∈ aliasKeys cls, ¬ x ∈ fieldNames cls := by
  intro x hx hmem
  simp only [aliasKeys] at hx
  obtain ⟨p, hp, hpx⟩ := List.mem_map.mp hx
  obtain ⟨fd, hfd, hal, _⟩ := (mem_aliasPairs h).mp hp
  exact h.2.2 fd hfd x (hpx ▸ hal) (mem_fieldNames.mp hmem)

/-- The binding characterization of a successful `from_dict` on a concrete
clean scheme: the result instance holds, in every field's slot, the value
under the field's alias key when the alias is declared and present in the
mapping, else the value under the canonical name (`d.get(name)`). -/
theorem bindChar (env : Env) (n : Nat) (cls : SchemeDef) (d : Val)
    (hclean : cleanScheme cls)
    (hstored : ∀ g ∈ cls.fields, storesRaw env d g)
    (hroot : cls.root = false)
    (hmap : isMappingVal d = true)
    (hcov : ¬ coverage cls (keysOfVal env d) = 0) :
    ∃ slots, fromDict env (n + 1) cls d = .ok (.inst cls.name slots) ∧
      ∀ fd ∈ cls.fields, assocGet slots fd.name = some (rawOf env d fd) := by
  have hdisj := clean_disj hclean
  obtain ⟨st1, done1, hrun1, huntouched1, hpairs1, hdone1⟩ :=
    bindAliases_spec env n cls d hclean hdisj hstored (aliasPairs cls) [] []
      (fun p hp => by
        obtain ⟨fd, hfd, hal, hname⟩ := (mem_aliasPairs hclean).mp hp
        exact ⟨fd, hfd, hname, hal⟩)
      (aliasPairs_snd_nodup hclean)
  obtain ⟨st2, hrun2, huntouched2, hflds2⟩ :=
    bindRest_spec env n cls d hclean hdisj
      ((fieldNames cls).filter (fun f => !done1.contains f)) st1
      (fun f hf => by
        obtain ⟨hmemf, hnot⟩ := List.mem_filter.mp hf
        have hnotdone : ¬ f ∈ done1 := by simpa using hnot
        obtain ⟨fd, hfd, hfname⟩ := List.mem_map.mp (mem_fieldNames.mp hmemf)
        have hst := hstored fd hfd
        refine ⟨fd, hfd, hfname, hst.1, hst.2.1, ?_⟩
        have hraweq : rawOf env d fd = mapGet env d f := by
          rw [rawOf]
          cases hal : fd.al with
          | none => rw [hfname]
          | some a =>
              have hcont : mapContains env d a = false := by
                by_contra hcne
                have hct : mapContains env d a = true := by
                  cases hc2 : mapContains env d a
                  · exact absurd hc2 hcne
                  · rfl
                apply hnotdone
                rw [hdone1 f]
                refine Or.inr ⟨(a, fd.name), ?_, hfname, hct⟩
                exact (mem_aliasPairs hclean).mpr ⟨fd, hfd, hal, rfl⟩
              simp only [hcont, Bool.false_eq_true, if_false]
              rw [hfname]
        rcases hst.2.2 with hacc | hacc
        · exact Or.inl hacc
        · exact Or.inr (hraweq ▸ hacc))
  refine ⟨st2, ?_, ?_⟩
  · simp only [fromDict, hmap, if_true, selectCls, hroot, Bool.false_eq_true,
      if_false]
    rw [if_neg hcov, hrun1]
    simp only []
    rw [hrun2]
  · intro fd hfd
    by_cases hdone : fd.name ∈ done1
    · rcases (hdone1 fd.name).mp hdone with hfalse | ⟨p, hp, hpe, hpc⟩
      · simp at hfalse
      obtain ⟨fd', hfd', hal', hname'⟩ := (mem_aliasPairs hclean).mp hp
      have hfd'eq : fd' = fd :=
        List.inj_on_of_nodup_map hclean.1 hfd' hfd (hname'.trans hpe)
      subst hfd'eq
      have hnotin : ¬ fd'.name ∈
          (fieldNames cls).filter (fun f => !done1.contains f) := by
        intro hmem
        have := (List.mem_filter.mp hmem).2
        simp [hdone] at this
      rw [huntouched2 fd'.name hnotin]
      have hslot := (hpairs1 p hp).1 hpc
      rw [hpe] at hslot
      rw [hslot]
      have : rawOf env d fd' = mapGet env d p.1 := by
        rw [rawOf, hal']
        simp only [hpc, if_true]
      rw [this]
    · have hmem : fd.name ∈
          (fieldNames cls).filter (fun f => !done1.contains f) :=
        List.mem_filter.mpr
          ⟨mem_fieldNames.mpr (List.mem_map_of_mem _ hfd), by simpa using hdone⟩
      rw [hflds2 fd.name hmem]
      have : rawOf env d fd = mapGet env d fd.name := by
        rw [rawOf]
        cases hal : fd.al with
        | none => rfl
        | some a =>
            have hcont : mapContains env d a = false := by
              cases hc2 : mapContains env d a
              · rfl
              · exact absurd ((hdone1 fd.name).mpr (Or.inr ⟨(a, fd.name),
                  (mem_aliasPairs hclean).mpr ⟨fd, hfd, hal, rfl⟩, rfl, hc2⟩))
                  hdone
            simp only [hcont, Bool.false_eq_true, if_false]
      rw [this]

/-! ## Claim C4 — alias precedence -/

/-- A scheme whose second field's alias collides with the first field's
canonical name: `class S(Scheme): x = Field(alias='a'); g = Field(alias='x')`. -/
def schemeC4 : SchemeDef :=
  ⟨"S", [⟨"x", some "a", [], [], Option.none, .plain⟩,
         ⟨"g", some "x", [], [], Option.none, .plain⟩], false, Option.none⟩

def envC4 : Env := [schemeC4]

/-- A mapping holding both the alias key `a` and the canonical name `x`
of the field `x`. -/
def dC4 : Val := .map [("a", .int 1), ("x", .int 2)]

theorem c4_run (n : Nat) :
    fromDict envC4 (n + 1) schemeC4 dC4 = .ok (.inst "S" [("g", Val.int 2)]) := by
  have h1 : setItemE envC4 n schemeC4 [] "x" (Val.int 1)
      = .ok [("g", Val.int 1)] := by
    rw [setItemE]
    show fieldSetE envC4 n "S"
      ⟨"g", some "x", [], [], Option.none, FieldKind.plain⟩ [] (Val.int 1) = _
    rw [fieldSetE_stores envC4 n "S" _ [] (Val.int 1) rfl rfl (Or.inl ⟨rfl, rfl⟩)]
    rfl
  have h2 : setItemE envC4 n schemeC4 [("g", Val.int 1)] "g" (Val.int 2)
      = .ok [("g", Val.int 2)] := by
    rw [setItemE]
    show fieldSetE envC4 n "S"
      ⟨"g", some "x", [], [], Option.none, FieldKind.plain⟩
      [("g", Val.int 1)] (Val.int 2) = _
    rw [fieldSetE_stores envC4 n "S" _ _ (Val.int 2) rfl rfl (Or.inl ⟨rfl, rfl⟩)]
    rfl
  have hA : bindAliases envC4 n schemeC4 dC4 [] [] [("a", "x"), ("x", "g")]
      = .ok ([("g", Val.int 2)], ["x", "g"]) := by
    rw [bindAliases.eq_def]
    show (match setItemE envC4 n schemeC4 [] "x" (Val.int 1) with
      | Except.error e => Except.error e
      | Except.ok st2 =>
          bindAliases envC4 n schemeC4 dC4 st2 ["x"] [("x", "g")]) = _
    rw [h1]
    show bindAliases envC4 n schemeC4 dC4 [("g", Val.int 1)] ["x"] [("x", "g")] = _
    rw [bindAliases.eq_def]
    show (match setItemE envC4 n schemeC4 [("g", Val.int 1)] "g" (Val.int 2) with
      | Except.error e => Except.error e
      | Except.ok st2 =>
          bindAliases envC4 n schemeC4 dC4 st2 ["x", "g"] []) = _
    rw [h2]
    show bindAliases envC4 n schemeC4 dC4 [("g", Val.int 2)] ["x", "g"] [] = _
    rw [bindAliases.eq_def]
  have hR : bindRest envC4 n schemeC4 dC4 [("g", Val.int 2)] []
      = .ok [("g", Val.int 2)] := by
    rw [bindRest.eq_def]
  simp only [fromDict]
  show (match bindAliases envC4 n schemeC4 dC4 [] [] [("a", "x"), ("x", "g")] with
    | Except.error e => Except.error e
    | Except.ok (st, done) =>
        match bindRest envC4 n schemeC4 dC4 st
            ((fieldNames schemeC4).filter (fun f => !done.contains f)) with
        | Except.error e => Except.error e
        | Except.ok st2 => Except.ok (Val.inst schemeC4.name st2)) = _
  rw [hA]
  show (match bindRest envC4 n schemeC4 dC4 [("g", Val.int 2)] [] with
    | Except.error e => Except.error e
    | Except.ok st2 => Except.ok (Val.inst schemeC4.name st2)) = _
  rw [hR]
  rfl

/-- Claim C4, counterexample: field `x` declares alias `a`, the mapping
`{'a': 1, 'x': 2}` contains both the alias key and the canonical name,
yet `from_dict` does not bind `x` to the alias value `1` — because the
other field's alias `x` shadows the canonical name in `__setitem__`, both
loop iterations write field `g` and the `x` slot is never assigned at
all (the result instance holds only `g = 2`). -/
theorem c4_alias_precedence_counterexample :
    (∃ fd ∈ schemeC4.fields, fd.name = "x" ∧ fd.al = some "a") ∧
    mapContains envC4 dC4 "a" = true ∧
    mapContains envC4 dC4 "x" = true ∧
    mapGet envC4 dC4 "a" = Val.int 1 ∧
    fromDict envC4 2 schemeC4 dC4 = .ok (.inst "S" [("g", Val.int 2)]) ∧
    ¬ assocGet [("g", Val.int 2)] "x" = some (mapGet envC4 dC4 "a") := by
  refine ⟨⟨⟨"x", some "a", [], [], Option.none, FieldKind.plain⟩,
    by simp [schemeC4], rfl, rfl⟩, rfl, rfl, rfl, c4_run 1, ?_⟩
  intro h
  simp [assocGet] at h

/-- Claim C4 (amended): on a clean scheme — no duplicate field names or
aliases, and no alias equal to any field name — whose fields all store
their raw values (scalar fields without validators that accept the bound
value), `from_dict` binds every field declaring an alias present in the
mapping to the value under the alias key, regardless of whether the
canonical name is also a key. -/
theorem c4_alias_precedence_amended (env : Env) (n : Nat) (cls : SchemeDef)
    (d : Val) (fd : FieldDecl) (a : String)
    (hclean : cleanScheme cls)
    (hstored : ∀ g ∈ cls.fields, storesRaw env d g)
    (hroot : cls.root = false)
    (hmap : isMappingVal d = true)
    (hcov : ¬ coverage cls (keysOfVal env d) = 0)
    (hfd : fd ∈ cls.fields)
    (hal : fd.al = some a)
    (hcont : mapContains env d a = true) :
    ∃ slots, fromDict env (n + 1) cls d = .ok (.inst cls.name slots) ∧
      assocGet slots fd.name = some (mapGet env d a) := by
  obtain ⟨slots, hrun, hslots⟩ :=
    bindChar env n cls d hclean hstored hroot hmap hcov
  refine ⟨slots, hrun, ?_⟩
  rw [hslots fd hfd]
  have : rawOf env d fd = mapGet env d a := by
    rw [rawOf, hal]
    simp [hcont]
  rw [this]

/-- A collision-free scheme for the amended claim: `x` with alias `ax`,
plus a second field `y`. -/
def schemeW4 : SchemeDef :=
  ⟨"W", [⟨"x", some "ax", [], [], Option.none, .plain⟩,
         ⟨"y", Option.none, [], [], Option.none, .plain⟩], false, Option.none⟩

def envW4 : Env := [schemeW4]

/-- A mapping holding both the alias key `ax` and the canonical name `x`. -/
def dW4 : Val := .map [("ax", .int 7), ("x", .int 9)]

theorem c4_alias_precedence_amended_witness :
    cleanScheme schemeW4 ∧
    (∀ g ∈ schemeW4.fields, storesRaw envW4 dW4 g) ∧
    schemeW4.root = false ∧
    isMappingVal dW4 = true ∧
    ¬ coverage schemeW4 (keysOfVal envW4 dW4) = 0 ∧
    (⟨"x", some "ax", [], [], Option.none, FieldKind.plain⟩ : FieldDecl)
      ∈ schemeW4.fields ∧
    mapContains envW4 dW4 "ax" = true ∧
    mapContains envW4 dW4 "x" = true ∧
    ∃ slots, fromDict envW4 2 schemeW4 dW4 = .ok (.inst schemeW4.name slots) ∧
      assocGet slots "x" = some (mapGet envW4 dW4 "ax") := by
  have hclean : cleanScheme schemeW4 := by
    refine ⟨by decide, by decide, ?_⟩
    intro fd hfd a ha
    rcases List.mem_cons.mp hfd with rfl | hfd
    · injection ha with h
      subst h
      decide
    · rcases List.mem_cons.mp hfd with rfl | hfd
      · cases ha
      · simp at hfd
  have hstored : ∀ g ∈ schemeW4.fields, storesRaw envW4 dW4 g := by
    intro g hg
    rcases List.mem_cons.mp hg with rfl | hg
    · exact ⟨rfl, rfl, Or.inl ⟨rfl, rfl⟩⟩
    · rcases List.mem_cons.mp hg with rfl | hg
      · exact ⟨rfl, rfl, Or.inl ⟨rfl, rfl⟩⟩
      · simp at hg
  refine ⟨hclean, hstored, rfl, rfl, by decide, by simp [schemeW4], rfl, rfl, ?_⟩
  exact c4_alias_precedence_amended envW4 1 schemeW4 dW4
    ⟨"x", some "ax", [], [], Option.none, FieldKind.plain⟩ "ax"
    hclean hstored rfl rfl (by decide) (by simp [schemeW4]) rfl rfl

/-! ## Claim C5 — the `from_dict` / `as_dict` round trip -/

/-- `isinstance(v, Scheme)` is false: the values `as_dict` passes through
unchanged. -/
def notInstVal : Val → Bool
  | .inst _ _ => false
  | _ => true

theorem exportVal_id (env : Env) (ln : Bool) (v : Val)
    (h : notInstVal v = true) : exportVal env ln v = v := by
  cases v with
  | inst t sl => simp [notInstVal] at h
  | none => rw [exportVal.eq_def]
  | int i => rw [exportVal.eq_def]
  | str s => rw [exportVal.eq_def]
  | map e => rw [exportVal.eq_def]
  | list l => rw [exportVal.eq_def]

theorem coverage_ne_zero_of_ext {cls : SchemeDef} {keys : List String}
    (hclean : cleanScheme cls) {fd : FieldDecl} (hfd : fd ∈ cls.fields)
    (hk : fd.al.getD fd.name ∈ keys) :
    ¬ coverage cls keys = 0 := by
  have hpos : 0 < coverage cls keys := by
    apply coverage_pos
    refine ⟨?_, hk⟩
    cases hal : fd.al with
    | none =>
        simp only [hal, Option.getD_none]
        exact Or.inl (mem_fieldNames.mpr (List.mem_map_of_mem _ hfd))
    | some a =>
        simp only [hal, Option.getD_some]
        refine Or.inr ?_
        have hpair : (a, fd.name) ∈ aliasPairs cls :=
          (mem_aliasPairs hclean).mpr ⟨fd, hfd, hal, rfl⟩
        simpa [aliasKeys] using List.mem_map_of_mem Prod.fst hpair
  omega

/-- A scheme with a single accept-anything field `x` and no aliases. -/
def schemeC5 : SchemeDef :=
  ⟨"P", [⟨"x", Option.none, [], [], Option.none, .plain⟩], false, Option.none⟩

def envC5 : Env := [schemeC5]

/-- A mapping containing exactly the scheme's declared key, bound to
`None`. -/
def dC5 : Val := .map [("x", Val.none)]

theorem c5_ok_run (n : Nat) :
    fromDict envC5 (n + 1) schemeC5 dC5 = .ok (.inst "P" [("x", Val.none)]) := by
  have h1 : setItemE envC5 n schemeC5 [] "x" Val.none = .ok [("x", Val.none)] := by
    rw [setItemE]
    show fieldSetE envC5 n "P"
      ⟨"x", Option.none, [], [], Option.none, FieldKind.plain⟩ [] Val.none = _
    rw [fieldSetE_stores envC5 n "P" _ [] Val.none rfl rfl (Or.inl ⟨rfl, rfl⟩)]
    rfl
  have hA : bindAliases envC5 n schemeC5 dC5 [] [] [] = .ok ([], []) := by
    rw [bindAliases.eq_def]
  have hR : bindRest envC5 n schemeC5 dC5 [] ["x"] = .ok [("x", Val.none)] := by
    rw [bindRest.eq_def]
    show (match setItemE envC5 n schemeC5 [] "x" Val.none with
      | Except.error e => Except.error e
      | Except.ok st2 => bindRest envC5 n schemeC5 dC5 st2 []) = _
    rw [h1]
    show bindRest envC5 n schemeC5 dC5 [("x", Val.none)] [] = _
    rw [bindRest.eq_def]
  simp only [fromDict]
  show (match bindAliases envC5 n schemeC5 dC5 [] [] [] with
    | Except.error e => Except.error e
    | Except.ok (st, done) =>
        match bindRest envC5 n schemeC5 dC5 st
            ((fieldNames schemeC5).filter (fun f => !done.contains f)) with
        | Except.error e => Except.error e
        | Except.ok st2 => Except.ok (Val.inst schemeC5.name st2)) = _
  rw [hA]
  show (match bindRest envC5 n schemeC5 dC5 [] ["x"] with
    | Except.error e => Except.error e
    | Except.ok st2 => Except.ok (Val.inst schemeC5.name st2)) = _
  rw [hR]
  rfl

theorem c5_fail_run (n : Nat) :
    fromDict envC5 (n + 1) schemeC5 (.map [])
      = .error (.schemaNoMatch "P" (fieldNames schemeC5) (.map [])) := by
  simp only [fromDict]
  rfl

/-- Claim C5, counterexample: the scheme `P` with the single
accept-anything field `x`, built from the mapping `{'x': None}` —
which contains exactly the declared keys — exports to the empty mapping
(`as_dict` drops the `None`-valued field), and re-importing that empty
mapping raises the no-match `SchemaError` instead of producing an equal
instance: the round trip does not even return an instance. -/
theorem c5_round_trip_counterexample :
    keysOfVal envC5 dC5 = ["x"] ∧
    fieldNames schemeC5 = ["x"] ∧
    (∀ fd ∈ schemeC5.fields, fd.al = Option.none) ∧
    fromDict envC5 2 schemeC5 dC5 = .ok (.inst "P" [("x", Val.none)]) ∧
    exportVal envC5 false (.inst "P" [("x", Val.none)]) = .map [] ∧
    fromDict envC5 2 schemeC5 (.map [])
      = .error (.schemaNoMatch "P" (fieldNames schemeC5) (.map [])) := by
  have hal : ∀ fd ∈ schemeC5.fields, fd.al = Option.none := by
    intro fd hfd
    rcases List.mem_cons.mp hfd with rfl | h
    · rfl
    · simp at h
  have hexp : exportVal envC5 false (.inst "P" [("x", Val.none)]) = .map [] := by
    have hcls : lookupScheme envC5 "P" = some schemeC5 := rfl
    rw [exportVal, hcls]
    simp only []
    rw [exportFields_eq_emit envC5 false schemeC5 [("x", Val.none)]
      (fieldNames schemeC5) [] (by decide)]
    rfl
  exact ⟨rfl, rfl, hal, c5_ok_run 1, hexp, c5_fail_run 1⟩

/-- Claim C5 (amended): the round trip holds for a clean, concrete,
registered scheme and a mapping whose keys are exactly the declared
external keys (alias if declared, else canonical name), provided every
bound value is stored unchanged, is not `None` (so `as_dict` does not
drop it) and is not itself a `Scheme` instance (so `as_dict` does not
transform it): `from_dict(s.as_dict())` then succeeds and compares
`==`-equal to `s`. -/
theorem c5_round_trip_amended (env : Env) (n : Nat) (cls : SchemeDef) (m : Val)
    (hclean : cleanScheme cls)
    (hlook : lookupScheme env cls.name = some cls)
    (hroot : cls.root = false)
    (hmap : isMappingVal m = true)
    (hne : cls.fields ≠ [])
    (hkeys : keysOfVal env m = cls.fields.map (fun fd => fd.al.getD fd.name))
    (hstored : ∀ g ∈ cls.fields, storesRaw env m g)
    (hnn : ∀ g ∈ cls.fields, notNoneVal (rawOf env m g) = true)
    (hni : ∀ g ∈ cls.fields, notInstVal (rawOf env m g) = true) :
    ∃ s s', fromDict env (n + 1) cls m = .ok s ∧
      fromDict env (n + 1) cls (exportVal env false s) = .ok s' ∧
      pyEq env s' s = true := by
  have hdisj := clean_disj hclean
  obtain ⟨fd0, rest0, hfs⟩ := List.exists_cons_of_ne_nil hne
  have hfd0 : fd0 ∈ cls.fields := by
    rw [hfs]
    exact List.mem_cons_self _ _
  have hcov1 : ¬ coverage cls (keysOfVal env m) = 0 := by
    refine coverage_ne_zero_of_ext hclean hfd0 ?_
    rw [hkeys]
    exact List.mem_map_of_mem _ hfd0
  obtain ⟨slots, hrun1, hslots1⟩ :=
    bindChar env n cls m hclean hstored hroot hmap hcov1
  have hnd := extOf_nodup hclean hdisj
  have hexp : exportVal env false (.inst cls.name slots)
      = .map (exportEmit env false cls slots (fieldNames cls)) := by
    rw [exportVal, hlook]
    simp only []
    rw [exportFields_eq_emit env false cls slots (fieldNames cls) []
      (by simpa using hnd)]
    simp
  have hext : ∀ fd ∈ cls.fields, extOf cls fd.name = fd.al.getD fd.name := by
    intro fd hfd
    simp [extOf, invAliases_assoc hclean fd hfd]
  have hassocE : ∀ fd ∈ cls.fields,
      assocGet (exportEmit env false cls slots (fieldNames cls))
          (fd.al.getD fd.name)
        = some (rawOf env m fd) := by
    intro fd hfd
    have hmemf : fd.name ∈ fieldNames cls :=
      mem_fieldNames.mpr (List.mem_map_of_mem _ hfd)
    have hlookE :=
      exportEmit_assoc env false cls slots (fieldNames cls) hnd fd.name hmemf
    rw [hext fd hfd] at hlookE
    rw [hlookE, hslots1 fd hfd]
    simp only []
    rw [hnn fd hfd]
    simp only [Bool.true_or, if_true]
    rw [exportVal_id env false _ (hni fd hfd)]
  have hmemE : ∀ fd ∈ cls.fields,
      (fd.al.getD fd.name)
        ∈ (exportEmit env false cls slots (fieldNames cls)).map Prod.fst := by
    intro fd hfd
    exact List.mem_map_of_mem _ (assocGet_mem_of_eq_some (hassocE fd hfd))
  have hrawE : ∀ fd ∈ cls.fields,
      rawOf env (.map (exportEmit env false cls slots (fieldNames cls))) fd
        = rawOf env m fd := by
    intro fd hfd
    cases hal : fd.al with
    | none =>
        have hsome := hassocE fd hfd
        rw [hal, Option.getD_none] at hsome
        rw [rawOf, hal]
        simp only [mapGet, hsome, Option.getD_some]
    | some a =>
        have hsome := hassocE fd hfd
        rw [hal, Option.getD_some] at hsome
        have hcontE : mapContains env
            (.map (exportEmit env false cls slots (fieldNames cls))) a = true := by
          simp only [mapContains]
          have hm := hmemE fd hfd
          rw [hal, Option.getD_some] at hm
          simpa using hm
        rw [rawOf, hal]
        simp only []
        rw [if_pos hcontE]
        simp only [mapGet, hsome, Option.getD_some]
  have hstored2 : ∀ g ∈ cls.fields,
      storesRaw env (.map (exportEmit env false cls slots (fieldNames cls))) g := by
    intro g hg
    obtain ⟨h1, h2, h3⟩ := hstored g hg
    refine ⟨h1, h2, ?_⟩
    rcases h3 with h3 | h3
    · exact Or.inl h3
    · exact Or.inr (by rw [hrawE g hg]; exact h3)
  have hcov2 : ¬ coverage cls (keysOfVal env
      (.map (exportEmit env false cls slots (fieldNames cls)))) = 0 := by
    refine coverage_ne_zero_of_ext hclean hfd0 ?_
    simpa [keysOfVal] using hmemE fd0 hfd0
  obtain ⟨slots', hrun2, hslots2⟩ :=
    bindChar env n cls (.map (exportEmit env false cls slots (fieldNames cls)))
      hclean hstored2 hroot rfl hcov2
  refine ⟨.inst cls.name slots, .inst cls.name slots', hrun1, ?_, ?_⟩
  · rw [hexp]
    exact hrun2
  · have hm : isMappingVal (Val.inst cls.name slots) = true := rfl
    simp only [pyEq, hm, Bool.true_and]
    apply instKeysEq_of_pointwise
    intro k hk
    refine ⟨iterKeys_mapContains env cls.name slots k hk, ?_⟩
    simp only [iterKeysInst, hlook] at hk
    obtain ⟨fd, hfd, hres⟩ : ∃ fd ∈ cls.fields,
        (assocGet (aliasPairs cls) k).getD k = fd.name := by
      rcases List.mem_append.mp hk with hk | hk
      · simp only [aliasKeys] at hk
        obtain ⟨v, hv⟩ := assocGet_isSome_of_mem hk
        obtain ⟨fd, hfd, hal, hname⟩ :=
          (mem_aliasPairs hclean).mp (assocGet_mem_of_eq_some hv)
        exact ⟨fd, hfd, by rw [hv, Option.getD_some]; exact hname.symm⟩
      · have hmemf := (List.mem_filter.mp hk).1
        obtain ⟨fd, hfd, hname⟩ := List.mem_map.mp (mem_fieldNames.mp hmemf)
        have hnone : assocGet (aliasPairs cls) k = Option.none :=
          assocGet_eq_none_of_not_mem (fun ha => hdisj k ha hmemf)
        exact ⟨fd, hfd, by rw [hnone, Option.getD_none]; exact hname.symm⟩
    simp only [getItemD, hlook]
    rw [hres, hslots1 fd hfd, hslots2 fd hfd, hrawE fd hfd]

/-- A clean two-field scheme (aliased `x`, plain `y`) for the amended
round-trip claim. -/
def schemeW5 : SchemeDef :=
  ⟨"W5", [⟨"x", some "ax", [], [], Option.none, .plain⟩,
          ⟨"y", Option.none, [], [], Option.none, .plain⟩], false, Option.none⟩

def envW5 : Env := [schemeW5]

/-- A mapping whose keys are exactly the declared external keys of `W5`. -/
def mW5 : Val := .map [("ax", .int 7), ("y", .int 8)]

theorem c5_round_trip_amended_witness :
    cleanScheme schemeW5 ∧
    lookupScheme envW5 "W5" = some schemeW5 ∧
    schemeW5.root = false ∧
    isMappingVal mW5 = true ∧
    schemeW5.fields ≠ [] ∧
    keysOfVal envW5 mW5
      = schemeW5.fields.map (fun fd => fd.al.getD fd.name) ∧
    (∀ g ∈ schemeW5.fields, storesRaw envW5 mW5 g) ∧
    (∀ g ∈ schemeW5.fields, notNoneVal (rawOf envW5 mW5 g) = true) ∧
    (∀ g ∈ schemeW5.fields, notInstVal (rawOf envW5 mW5 g) = true) ∧
    ∃ s s', fromDict envW5 2 schemeW5 mW5 = .ok s ∧
      fromDict envW5 2 schemeW5 (exportVal envW5 false s) = .ok s' ∧
      pyEq envW5 s' s = true := by
  have hclean : cleanScheme schemeW5 := by
    refine ⟨by decide, by decide, ?_⟩
    intro fd hfd a ha
    rcases List.mem_cons.mp hfd with rfl | hfd
    · cases ha
      decide
    · rcases List.mem_cons.mp hfd with rfl | hfd
      · cases ha
      · simp at hfd
  have hstored : ∀ g ∈ schemeW5.fields, storesRaw envW5 mW5 g := by
    intro g hg
    rcases List.mem_cons.mp hg with rfl | hg
    · exact ⟨rfl, rfl, Or.inl ⟨rfl, rfl⟩⟩
    · rcases List.mem_cons.mp hg with rfl | hg
      · exact ⟨rfl, rfl, Or.inl ⟨rfl, rfl⟩⟩
      · simp at hg
  have hnn : ∀ g ∈ schemeW5.fields, notNoneVal (rawOf envW5 mW5 g) = true := by
    intro g hg
    rcases List.mem_cons.mp hg with rfl | hg
    · rfl
    · rcases List.mem_cons.mp hg with rfl | hg
      · rfl
      · simp at hg
  have hni : ∀ g ∈ schemeW5.fields, notInstVal (rawOf envW5 mW5 g) = true := by
    intro g hg
    rcases List.mem_cons.mp hg with rfl | hg
    · rfl
    · rcases List.mem_cons.mp hg with rfl | hg
      · rfl
      · simp at hg
  refine ⟨hclean, rfl, rfl, rfl, by simp [schemeW5], rfl, hstored, hnn, hni, ?_⟩
  exact c5_round_trip_amended envW5 1 schemeW5 mW5 hclean rfl rfl rfl
    (by simp [schemeW5]) rfl hstored hnn hni

end Flowerfield
